import Mathlib

/-!
# HopliteOS kernel: block allocator, object store and console

A shallow embedding of `src/kernel.c`.

* Machine integers: `size_t` is 32 bits wide (the kernel is built for 32-bit x86), so
  arithmetic on `size_t` values is written on `Nat` with an explicit `% SIZE_MOD`.
* Pointers: every pointer the kernel stores in `mem_blocks` or `files` is either `NULL`
  or lies in `memory_pool`.  A pointer is an `Option Nat`: `none` is `NULL` and
  `some off` is the address `memory_pool + off`.  The `addr` field of a block descriptor
  is only ever assigned `memory_pool` or `addr + size`, so it is kept as the offset.
* Arrays with a fill count (`mem_blocks` with `mem_blocks_count`) are lists whose length
  is the count; entries past the count are never read before they are overwritten.
* C strings passed as arguments are lists of bytes; the end of the list stands for the
  terminating NUL, and a `0` inside the list terminates the string early, as in C.
* The console: `terminal_buffer` points at display memory; the cells are a function from
  the cell index to the 16-bit entry, and a store through the pointer is an update of
  that function at the index the code computes.  Bytes and attributes are naturals
  below 256.
-/

namespace Hoplite

/-! ## Constants -/

/-- The pool size, `#define MEMORY_POOL_SIZE 32768`. -/
def MEMORY_POOL_SIZE : Nat := 32768

/-- The number of object slots, `#define MAX_FILES 16`. -/
def MAX_FILES : Nat := 16

/-- The size of the name array of a slot, `#define MAX_FILENAME 32`. -/
def MAX_FILENAME : Nat := 32

/-- The largest content length accepted, `#define MAX_FILE_SIZE 1024`. -/
def MAX_FILE_SIZE : Nat := 1024

/-- The dimension of the descriptor table, `static MemBlock mem_blocks[64]`. -/
def MAX_BLOCKS : Nat := 64

/-- The modulus of `size_t` arithmetic: `size_t` has 32 bits. -/
def SIZE_MOD : Nat := 4294967296

/-! ## Allocator state -/

/-- The struct `MemBlock`: `addr` is the offset of the region from `memory_pool`. -/
structure MemBlock where
  addr : Nat
  size : Nat
  used : Bool
deriving DecidableEq, Repr

/-- The allocator globals: `mem_blocks[0 .. mem_blocks_count)` and `total_allocated`. -/
structure Allocator where
  mem_blocks : List MemBlock
  total_allocated : Nat
deriving DecidableEq, Repr

/-- The loop `for (i = 0; i < n; i++) if (p(a[i])) { ... return; }`: the first index whose
entry satisfies the test, together with that entry. -/
def first_match {α : Type} (p : α → Bool) : List α → Option (Nat × α)
  | [] => none
  | x :: xs =>
    if p x then some (0, x)
    else
      match first_match p xs with
      | none => none
      | some (i, y) => some (i + 1, y)

/-- The function `memory_init`: one free block spanning the pool, nothing allocated. -/
def memory_init : Allocator :=
  { mem_blocks := [{ addr := 0, size := MEMORY_POOL_SIZE, used := false }],
    total_allocated := 0 }

/-- The expression `(size + 3) & ~3` on `size_t`: the sum wraps modulo `SIZE_MOD` and
`~3` is the mask `SIZE_MOD - 4`. -/
def align4 (size : Nat) : Nat := ((size + 3) % SIZE_MOD) &&& (SIZE_MOD - 4)

/-- The test `!mem_blocks[i].used && mem_blocks[i].size >= size` of the scan in
`kmalloc`, `r` being the rounded request. -/
def fits (r : Nat) (b : MemBlock) : Bool := !b.used && decide (r ≤ b.size)

/-- The function `kmalloc`: returns the pointer (`none` for `NULL`) and the new state. -/
def kmalloc (s : Allocator) (size : Nat) : Option Nat × Allocator :=
  if size = 0 then (none, s)
  else
    let size := align4 size
    match first_match (fits size) s.mem_blocks with
    | none => (none, s)
    | some (i, b) =>
      if (size + 16) % SIZE_MOD < b.size ∧ s.mem_blocks.length < MAX_BLOCKS then
        (some b.addr,
          { mem_blocks :=
              s.mem_blocks.set i { addr := b.addr, size := size, used := true } ++
                [{ addr := b.addr + size, size := b.size - size, used := false }],
            total_allocated := (s.total_allocated + size) % SIZE_MOD })
      else
        (some b.addr,
          { mem_blocks := s.mem_blocks.set i { addr := b.addr, size := b.size, used := true },
            total_allocated := (s.total_allocated + b.size) % SIZE_MOD })

/-- The function `kfree`: the first used block whose address is `ptr` becomes free and
its size is subtracted (as a `size_t`) from `total_allocated`. -/
def kfree (s : Allocator) (ptr : Option Nat) : Allocator :=
  match ptr with
  | none => s
  | some p =>
    match first_match (fun b => decide (b.addr = p) && b.used) s.mem_blocks with
    | none => s
    | some (i, b) =>
      { mem_blocks := s.mem_blocks.set i { addr := b.addr, size := b.size, used := false },
        total_allocated := (s.total_allocated + SIZE_MOD - b.size) % SIZE_MOD }

/-- The states reachable from `memory_init` by `kmalloc` (any `size_t` argument) and
`kfree` (any pointer) calls. -/
inductive Reachable : Allocator → Prop
  | init : Reachable memory_init
  | malloc (s : Allocator) (size : Nat) :
      size < SIZE_MOD → Reachable s → Reachable (kmalloc s size).2
  | free (s : Allocator) (ptr : Option Nat) : Reachable s → Reachable (kfree s ptr)

/-! ## Strings -/

/-- The function `strlen`: the number of bytes before the terminator. -/
def strlen : List Nat → Nat
  | [] => 0
  | c :: cs => if c = 0 then 0 else strlen cs + 1

/-- The byte a `char*` points at: the head of the list, or the terminator at its end. -/
def head0 : List Nat → Nat
  | [] => 0
  | c :: _ => c

/-- The function `strcmp`: walk both strings while the byte of the first is not NUL and
equals the byte of the second, then return the difference of the two bytes. -/
def strcmp : List Nat → List Nat → Int
  | [], s2 => 0 - (head0 s2 : Int)
  | a :: _, [] => (a : Int) - 0
  | a :: s1, b :: s2 => if a ≠ 0 ∧ a = b then strcmp s1 s2 else (a : Int) - (b : Int)

/-- The string a `char*` denotes: the bytes before the first NUL.  It is what
`strcpy(files[i].name, name)` leaves in the name array. -/
def cstr : List Nat → List Nat
  | [] => []
  | c :: cs => if c = 0 then [] else c :: cstr cs

/-- The function `strcpy` into the pool: the bytes of `src` up to its terminator are
stored from offset `dest` on, followed by a NUL. -/
def strcpy (mem : Nat → Nat) (dest : Nat) : List Nat → Nat → Nat
  | [] => Function.update mem dest 0
  | c :: cs =>
    if c = 0 then Function.update mem dest 0
    else strcpy (Function.update mem dest c) (dest + 1) cs

/-! ## Object store state -/

/-- The struct `File`: `name` is the string held in `name[MAX_FILENAME]`, `content` the
pointer into the pool (`none` for `NULL`). -/
structure File where
  name : List Nat
  content : Option Nat
  size : Nat
  used : Bool
deriving DecidableEq, Repr

/-- The globals of the kernel that the object store works on: the allocator, the bytes of
`memory_pool` (by offset) and the table `files`. -/
structure Store where
  alloc : Allocator
  memory_pool : Nat → Nat
  files : List File

/-- The function `fs_init`: every slot is marked free and its content pointer cleared. -/
def fs_init (files : List File) : List File :=
  files.map (fun f => { f with used := false, content := none })

/-- The state after `memory_init(); fs_init();` in `kernel_main`, the statics being
zero-initialised before. -/
def boot : Store :=
  { alloc := memory_init,
    memory_pool := fun _ => 0,
    files := fs_init (List.replicate MAX_FILES ⟨[], none, 0, false⟩) }

/-- The test `files[i].used && strcmp(files[i].name, name) == 0`. -/
def is_named (name : List Nat) (f : File) : Bool := f.used && decide (strcmp f.name name = 0)

/-- The function `fs_create`: returns the status code and the new state. -/
def fs_create (s : Store) (name content : List Nat) : Int × Store :=
  match first_match (is_named name) s.files with
  | some _ => (-1, s)
  | none =>
    match first_match (fun f => !f.used) s.files with
    | none => (-4, s)
    | some (i, f) =>
      let content_len := strlen content
      if content_len > MAX_FILE_SIZE then (-2, s)
      else
        -- `content_len + 1` is at most 1025 here and does not wrap
        match kmalloc s.alloc (content_len + 1) with
        | (none, a) =>
          (-3, { alloc := a, memory_pool := s.memory_pool,
                 files := s.files.set i { f with content := none } })
        | (some p, a) =>
          (0, { alloc := a,
                memory_pool := strcpy s.memory_pool p content,
                files := s.files.set i
                  { name := cstr name, content := some p, size := content_len, used := true } })

/-- The function `fs_read`: the slot found (what the returned `File*` points at), or
`none` for `NULL`. -/
def fs_read (s : Store) (name : List Nat) : Option File :=
  match first_match (is_named name) s.files with
  | none => none
  | some (_, f) => some f

/-- The function `fs_delete`: returns the status code and the new state. -/
def fs_delete (s : Store) (name : List Nat) : Int × Store :=
  match first_match (is_named name) s.files with
  | none => (-1, s)
  | some (i, f) =>
    (0, { alloc := kfree s.alloc f.content, memory_pool := s.memory_pool,
          files := s.files.set i { f with used := false } })

/-- The bytes of an object as seen through the `File*` of `fs_read`: `size` bytes of the
pool starting at `content`. -/
def File.bytes (mem : Nat → Nat) (f : File) : List Nat :=
  match f.content with
  | none => []
  | some p => (List.range f.size).map (fun k => mem (p + k))

/-- The states reachable from `boot` by `fs_create` calls whose name fits the name array
(at most 31 characters; a longer name overruns `name[MAX_FILENAME]`) and by `fs_delete`
calls. -/
inductive StoreReachable : Store → Prop
  | boot : StoreReachable boot
  | create (s : Store) (name content : List Nat) :
      strlen name < MAX_FILENAME → StoreReachable s → StoreReachable (fs_create s name content).2
  | delete (s : Store) (name : List Nat) :
      StoreReachable s → StoreReachable (fs_delete s name).2

/-! ## Sums over the descriptor table -/

/-- The sum of a measure over a table. -/
def total {α : Type} (g : α → Nat) (l : List α) : Nat := (l.map g).sum

/-- The measure 1 on the blocks whose half-open range contains the offset `x`. -/
def covers (x : Nat) (b : MemBlock) : Nat :=
  if b.addr ≤ x ∧ x < b.addr + b.size then 1 else 0

/-- The measure giving the length of a used block and 0 for a free one. -/
def used_size (b : MemBlock) : Nat := if b.used then b.size else 0

/-- The measure giving the length of a free block and 0 for a used one. -/
def free_size (b : MemBlock) : Nat := if b.used then 0 else b.size

/-- The allocator invariant: the lengths add up to the pool size, every offset lies in
at most one block, and `total_allocated` is the sum of the lengths of the used blocks. -/
structure AllocInv (s : Allocator) : Prop where
  sum_size : total MemBlock.size s.mem_blocks = MEMORY_POOL_SIZE
  disjoint : ∀ x, total (covers x) s.mem_blocks ≤ 1
  counter : s.total_allocated = total used_size s.mem_blocks

/-- The round-up of the specification: `size` rounded up to a multiple of 4, as a
natural number (no wrap-around). -/
def spec_round_up4 (size : Nat) : Nat := (size + 3) / 4 * 4

/-- A reachable state: allocate 100 bytes, allocate 40 bytes, release the first block. -/
def sample_alloc : Allocator :=
  kfree (kmalloc (kmalloc memory_init 100).2 40).2 (some 0)

/-- The state after carving the pool into two blocks of 16384 bytes and releasing both. -/
def two_halves_released : Allocator :=
  kfree (kfree (kmalloc (kmalloc memory_init 16384).2 16384).2 (some 0)) (some 16384)

/-- The store after `fs_create("x", "hi")` on the boot state. -/
def store_x_hi : Store := (fs_create boot [120] [104, 105]).2

/-- The store after `fs_create("a", "one")` and `fs_create("b", "three")`. -/
def store_a_b : Store :=
  (fs_create (fs_create boot [97] [111, 110, 101]).2 [98] [116, 104, 114, 101, 101]).2

/-- Create "b" with `4 * k - 1` bytes of content, then delete it: this leaves one more
free block, of `4 * k` bytes, in the descriptor table. -/
def churn_step (s : Store) (k : Nat) : Store :=
  (fs_delete (fs_create s [98] (List.replicate (4 * k - 1) 97)).2 [98]).2

/-- Repeat `churn_step` for `n` consecutive values of `k`. -/
def churn (s : Store) : Nat → Nat → Store
  | 0, _ => s
  | n + 1, k => churn (churn_step s k) n (k + 1)

/-- A store whose descriptor table is full and whose only large block is in use: create
"a" and "b", delete both (slot 1 keeps its stale content pointer), churn until the table
holds 64 descriptors, then create "z", which takes the whole remaining block. -/
def fragmented_store : Store :=
  (fs_create
    (churn
      (fs_delete (fs_delete
        (fs_create (fs_create boot [97] [97, 97, 97]).2 [98] [97, 97, 97, 97, 97, 97, 97]).2
        [98]).2 [97]).2
      61 3)
    [122] (List.replicate 300 97)).2

/-- Create `n` objects named by the single bytes `97, 98, ...`, each with content "0". -/
def fill (s : Store) : Nat → Store
  | 0 => s
  | n + 1 => (fs_create (fill s n) [97 + n] [48]).2

/-- The store with all 16 slots live. -/
def full_store : Store := fill boot 16

/-- The measure 1 on the used blocks whose address is `p`. -/
def used_at (p : Nat) (b : MemBlock) : Nat := if b.used = true ∧ b.addr = p then 1 else 0

/-- The measure 1 on the live slots whose content pointer is `memory_pool + p`. -/
def file_at (p : Nat) (f : File) : Nat := if f.used = true ∧ f.content = some p then 1 else 0

/-- The measure 1 on the live slots whose stored name is `n`. -/
def named (n : List Nat) (f : File) : Nat := if f.used = true ∧ f.name = n then 1 else 0

/-- The object store invariant: the allocator invariant; every block has a positive
length and lies in the pool; for each address there are no more live slots pointing at it
than used blocks starting there; every live slot points at a used block with room for its
content and the terminator; live names are pairwise different and hold no NUL. -/
structure StoreInv (s : Store) : Prop where
  alloc : AllocInv s.alloc
  pos : ∀ b ∈ s.alloc.mem_blocks, 0 < b.size
  in_pool : ∀ b ∈ s.alloc.mem_blocks, b.addr + b.size ≤ MEMORY_POOL_SIZE
  own : ∀ p, total (file_at p) s.files ≤ total (used_at p) s.alloc.mem_blocks
  room : ∀ f ∈ s.files, f.used = true →
    ∃ b ∈ s.alloc.mem_blocks, b.used = true ∧ f.content = some b.addr ∧ f.size + 1 ≤ b.size
  names : ∀ n, total (named n) s.files ≤ 1
  nul_free : ∀ f ∈ s.files, f.used = true → cstr f.name = f.name

/-! ## Further allocator definitions -/

/-- The states reachable from `memory_init` by `kfree` calls and by `kmalloc` calls whose
round-up does not wrap (`size + 3 < SIZE_MOD`). -/
inductive ReachableNoWrap : Allocator → Prop
  | init : ReachableNoWrap memory_init
  | malloc (s : Allocator) (size : Nat) :
      size + 3 < SIZE_MOD → ReachableNoWrap s → ReachableNoWrap (kmalloc s size).2
  | free (s : Allocator) (ptr : Option Nat) : ReachableNoWrap s → ReachableNoWrap (kfree s ptr)

/-- The state after `kmalloc(4294967295); kmalloc(4);` on the state of `memory_init`. -/
def double_base : Allocator := (kmalloc (kmalloc memory_init 4294967295).2 4).2

/-- The numbers `cmd_meminfo` prints after the pool size: `total_allocated`,
`MEMORY_POOL_SIZE - total_allocated` (a subtraction on `size_t`) and `mem_blocks_count`. -/
def cmd_meminfo (s : Allocator) : Nat × Nat × Nat :=
  (s.total_allocated,
    (MEMORY_POOL_SIZE + SIZE_MOD - s.total_allocated) % SIZE_MOD,
    s.mem_blocks.length)

/-! ## Listing -/

/-- The loop of `cmd_ls` over `files`: for each used slot, in table order, the name and
the size it prints. -/
def ls_entries : List File → List (List Nat × Nat)
  | [] => []
  | f :: fs => if f.used then (f.name, f.size) :: ls_entries fs else ls_entries fs

/-- The function `cmd_ls` as far as the store is concerned: the entries printed and the
store it leaves, which it never writes. -/
def cmd_ls (s : Store) : List (List Nat × Nat) × Store := (ls_entries s.files, s)

/-- A run of `fs_create` calls, one per (name, content) pair, in order: the status codes
and the final state. -/
def create_all (s : Store) : List (List Nat × List Nat) → List Int × Store
  | [] => ([], s)
  | r :: rs =>
    ((fs_create s r.1 r.2).1 :: (create_all (fs_create s r.1 r.2).2 rs).1,
      (create_all (fs_create s r.1 r.2).2 rs).2)

/-- The measure 1 on the used blocks. -/
def block_live (b : MemBlock) : Nat := if b.used = true then 1 else 0

/-- The measure 1 on the live slots. -/
def file_live (f : File) : Nat := if f.used = true then 1 else 0

/-- The store after create "a" (10 bytes), delete "a", create "b" (8 bytes) from boot. -/
def store_reused : Store :=
  (fs_create (fs_delete (fs_create boot [97] (List.replicate 10 120)).2 [97]).2 [98]
    (List.replicate 8 121)).2

/-- The store after create "a" (20 bytes), delete "a", create "b" (8 bytes) from boot:
"b" takes the whole 24-byte block that "a" left. -/
def store_slack : Store :=
  (fs_create (fs_delete (fs_create boot [97] (List.replicate 20 120)).2 [97]).2 [98]
    (List.replicate 8 121)).2

/-! ## Console -/

/-- The grid width, `#define VGA_WIDTH 80`. -/
def VGA_WIDTH : Nat := 80

/-- The grid height, `#define VGA_HEIGHT 25`. -/
def VGA_HEIGHT : Nat := 25

/-- The function `vga_entry_color`: `fg | bg << 4` as a `uint8_t`. -/
def vga_entry_color (fg bg : Nat) : Nat := (fg ||| (bg <<< 4)) % 256

/-- The function `vga_entry`: `(uint16_t) c | (uint16_t) color << 8` for an
`unsigned char c` and a `uint8_t color`. -/
def vga_entry (c color : Nat) : Nat := (c % 256) ||| ((color % 256) <<< 8)

/-- The console globals: the cursor, the active attribute and the cells that
`terminal_buffer` points at, by index. -/
structure Terminal where
  terminal_row : Nat
  terminal_column : Nat
  terminal_color : Nat
  terminal_buffer : Nat → Nat

/-- The loop `for (i = 0; i < n; i++) body(i)` on a state. -/
def for_loop {σ : Type} (body : Nat → σ → σ) : Nat → σ → σ
  | 0, s => s
  | n + 1, s => body n (for_loop body n s)

/-- The index expression `y * VGA_WIDTH + x` on `size_t`. -/
def cell_index (x y : Nat) : Nat := (y * VGA_WIDTH + x) % SIZE_MOD

/-- The nested loops that store one entry in every cell of the grid. -/
def fill_grid (buf : Nat → Nat) (entry : Nat) : Nat → Nat :=
  for_loop (fun y buf =>
    for_loop (fun x buf => Function.update buf (cell_index x y) entry) VGA_WIDTH buf)
    VGA_HEIGHT buf

/-- The function `terminal_initialize`; `VGA_LIGHT_GREY` is 7 and `VGA_BLACK` is 0. -/
def terminal_initialize (t : Terminal) : Terminal :=
  { terminal_row := 0,
    terminal_column := 0,
    terminal_color := vga_entry_color 7 0,
    terminal_buffer := fill_grid t.terminal_buffer (vga_entry 32 (vga_entry_color 7 0)) }

/-- The function `terminal_setcolor`. -/
def terminal_setcolor (t : Terminal) (color : Nat) : Terminal :=
  { t with terminal_color := color % 256 }

/-- The function `terminal_scroll`: rows 1 to 24 are copied one row up, cell by cell
in increasing order, the last row is filled with spaces, the cursor row is set to 24. -/
def terminal_scroll (t : Terminal) : Terminal :=
  let buf1 :=
    for_loop (fun y buf =>
      for_loop (fun x buf =>
        Function.update buf (cell_index x y) (buf (cell_index x (y + 1)))) VGA_WIDTH buf)
      (VGA_HEIGHT - 1) t.terminal_buffer
  let buf2 :=
    for_loop (fun x buf =>
      Function.update buf (cell_index x (VGA_HEIGHT - 1)) (vga_entry 32 t.terminal_color))
      VGA_WIDTH buf1
  { t with terminal_buffer := buf2, terminal_row := VGA_HEIGHT - 1 }

/-- The function `terminal_putentryat`. -/
def terminal_putentryat (t : Terminal) (c color x y : Nat) : Terminal :=
  let buf := Function.update t.terminal_buffer (cell_index x y) (vga_entry c color)
  { t with terminal_buffer := buf }

/-- The statements `terminal_column = 0; if (++terminal_row == VGA_HEIGHT)
terminal_scroll();` shared by the newline and the wrap. -/
def next_line (t : Terminal) : Terminal :=
  let t1 : Terminal :=
    { t with terminal_column := 0, terminal_row := (t.terminal_row + 1) % SIZE_MOD }
  if t1.terminal_row = VGA_HEIGHT then terminal_scroll t1 else t1

/-- The function `terminal_putchar`; `'\n'` is 10 and `'\b'` is 8. -/
def terminal_putchar (t : Terminal) (c : Nat) : Terminal :=
  if c = 10 then next_line t
  else if c = 8 then
    if 0 < t.terminal_column then
      terminal_putentryat { t with terminal_column := t.terminal_column - 1 } 32
        t.terminal_color (t.terminal_column - 1) t.terminal_row
    else t
  else
    let t1 := terminal_putentryat t c t.terminal_color t.terminal_column t.terminal_row
    let t2 : Terminal := { t1 with terminal_column := (t1.terminal_column + 1) % SIZE_MOD }
    if t2.terminal_column = VGA_WIDTH then next_line t2 else t2

/-- The function `terminal_write`: `data` is the list of the `size` bytes. -/
def terminal_write (t : Terminal) : List Nat → Terminal
  | [] => t
  | c :: cs => terminal_write (terminal_putchar t c) cs

/-- The function `terminal_clear`. -/
def terminal_clear (t : Terminal) : Terminal :=
  let buf := fill_grid t.terminal_buffer (vga_entry 32 t.terminal_color)
  { t with terminal_buffer := buf, terminal_row := 0, terminal_column := 0 }

/-- The console states reachable after `terminal_initialize` by calls of
`terminal_putchar`, `terminal_write`, `terminal_scroll`, `terminal_clear` and
`terminal_setcolor`. -/
inductive ConsoleReachable : Terminal → Prop
  | init (t : Terminal) : ConsoleReachable ( terminal_initialize t)
  | putchar (t : Terminal) (c : Nat) :
      ConsoleReachable t → ConsoleReachable (terminal_putchar t c)
  | write (t : Terminal) (data : List Nat) :
      ConsoleReachable t → ConsoleReachable (terminal_write t data)
  | scroll (t : Terminal) : ConsoleReachable t → ConsoleReachable (terminal_scroll t)
  | clear (t : Terminal) : ConsoleReachable t → ConsoleReachable (terminal_clear t)
  | setcolor (t : Terminal) (color : Nat) :
      ConsoleReachable t → ConsoleReachable (terminal_setcolor t color)

/-- A console before `terminal_initialize`: all statics zero, display memory zero. -/
def blank_terminal : Terminal :=
  { terminal_row := 0, terminal_column := 0, terminal_color := 0,
    terminal_buffer := fun _ => 0 }

/-- The console after `terminal_initialize`. -/
def console0 : Terminal := terminal_initialize blank_terminal

/-! ## Lemmas on `first_match` and `total` -/

theorem total_nil {α : Type} (g : α → Nat) : total g [] = 0 := rfl

theorem total_cons {α : Type} (g : α → Nat) (x : α) (l : List α) :
    total g (x :: l) = g x + total g l := by
  simp [total]

theorem total_append {α : Type} (g : α → Nat) (l₁ l₂ : List α) :
    total g (l₁ ++ l₂) = total g l₁ + total g l₂ := by
  simp [total]

theorem first_match_none {α : Type} (p : α → Bool) (l : List α) :
    first_match p l = none ↔ ∀ x ∈ l, p x = false := by
  induction l with
  | nil => simp [first_match]
  | cons a l ih =>
    by_cases ha : p a = true
    · simp [first_match, ha]
    · simp only [first_match, ha]
      cases hm : first_match p l with
      | none =>
        have := ih.mp hm
        simp_all
      | some r =>
        have : ¬ ∀ x ∈ l, p x = false := fun h => by simp [ih.mpr h] at hm
        simp_all

theorem first_match_some {α : Type} (p : α → Bool) (l : List α) (i : Nat) (b : α)
    (h : first_match p l = some (i, b)) :
    p b = true ∧ l[i]? = some b ∧ ∀ j c, j < i → l[j]? = some c → p c = false := by
  induction l generalizing i with
  | nil => simp [first_match] at h
  | cons a l ih =>
    by_cases ha : p a = true
    · simp only [first_match, ha, if_true, Option.some.injEq, Prod.mk.injEq] at h
      obtain ⟨rfl, rfl⟩ := h
      exact ⟨ha, by simp, fun j c hj => by omega⟩
    · simp only [first_match, ha] at h
      cases hm : first_match p l with
      | none => simp [hm] at h
      | some r =>
        obtain ⟨k, y⟩ := r
        simp only [hm, Bool.false_eq_true, if_false, Option.some.injEq, Prod.mk.injEq] at h
        obtain ⟨rfl, rfl⟩ := h
        obtain ⟨h1, h2, h3⟩ := ih k hm
        refine ⟨h1, by simpa using h2, ?_⟩
        intro j c hj hc
        cases j with
        | zero =>
          simp at hc
          subst hc
          simpa using ha
        | succ j =>
          simp at hc
          exact h3 j c (by omega) hc

theorem first_match_mem {α : Type} (p : α → Bool) (l : List α) (i : Nat) (b : α)
    (h : first_match p l = some (i, b)) : b ∈ l ∧ i < l.length := by
  have h2 := (first_match_some p l i b h).2.1
  rw [List.getElem?_eq_some_iff] at h2
  obtain ⟨hi, rfl⟩ := h2
  exact ⟨List.getElem_mem _, hi⟩

theorem total_set {α : Type} (g : α → Nat) (l : List α) (i : Nat) (b v : α)
    (h : l[i]? = some b) : total g (l.set i v) + g b = total g l + g v := by
  induction l generalizing i with
  | nil => simp at h
  | cons a l ih =>
    cases i with
    | zero =>
      simp at h
      subst h
      simp only [List.set_cons_zero, total_cons]
      omega
    | succ i =>
      simp at h
      have := ih i h
      simp only [List.set_cons_succ, total_cons]
      omega

theorem total_ge {α : Type} (g : α → Nat) (l : List α) (i : Nat) (a : α)
    (hi : l[i]? = some a) : g a ≤ total g l := by
  have := total_set g l i a a hi
  induction l generalizing i with
  | nil => simp at hi
  | cons x l ih =>
    cases i with
    | zero =>
      simp at hi
      subst hi
      rw [total_cons]; omega
    | succ i =>
      simp at hi
      have := ih i hi (total_set g l i a a hi)
      rw [total_cons]; omega

theorem total_two_le {α : Type} (g : α → Nat) (l : List α) (i j : Nat) (a b : α) (hij : i ≠ j)
    (hi : l[i]? = some a) (hj : l[j]? = some b) : g a + g b ≤ total g l := by
  induction l generalizing i j with
  | nil => simp at hi
  | cons x l ih =>
    rw [total_cons]
    cases i with
    | zero =>
      cases j with
      | zero => exact absurd rfl hij
      | succ j =>
        simp at hi hj
        subst hi
        have := total_ge g l j b hj
        omega
    | succ i =>
      cases j with
      | zero =>
        simp at hi hj
        subst hj
        have := total_ge g l i a hi
        omega
      | succ j =>
        simp at hi hj
        have := ih i j (by omega) hi hj
        omega

theorem total_mem_two_le {α : Type} (g : α → Nat) (l : List α) (a b : α) (hab : a ≠ b)
    (ha : a ∈ l) (hb : b ∈ l) : g a + g b ≤ total g l := by
  obtain ⟨i, hi⟩ := List.getElem?_of_mem ha
  obtain ⟨j, hj⟩ := List.getElem?_of_mem hb
  have hij : i ≠ j := by
    rintro rfl
    rw [hi] at hj
    exact hab (Option.some.inj hj)
  exact total_two_le g l i j a b hij hi hj

theorem mem_set_of_ne {α : Type} (l : List α) (i : Nat) (b v x : α)
    (h : l[i]? = some b) (hx : x ∈ l) (hne : x ≠ b) : x ∈ l.set i v := by
  obtain ⟨j, hj⟩ := List.getElem?_of_mem hx
  have hij : i ≠ j := by
    rintro rfl
    rw [h] at hj
    exact hne (Option.some.inj hj).symm
  have : (l.set i v)[j]? = some x := by
    rw [List.getElem?_set_ne hij]; exact hj
  exact List.getElem?_mem this

theorem mem_set_self {α : Type} (l : List α) (i : Nat) (b v : α)
    (h : l[i]? = some b) : v ∈ l.set i v := by
  rw [List.getElem?_eq_some_iff] at h
  obtain ⟨hlt, _⟩ := h
  have : (l.set i v)[i]? = some v := by simp [hlt]
  exact List.getElem?_mem this

theorem and_mask (x : Nat) (h : x < SIZE_MOD) : x &&& (SIZE_MOD - 4) = x / 4 * 4 := by
  have h : x < 2 ^ 32 := h
  apply Nat.eq_of_testBit_eq
  intro i
  have h3 : SIZE_MOD - 4 = 2 ^ 32 - (3 + 1) := rfl
  have h4 : x / 4 * 4 = 2 ^ 2 * (x >>> 2) := by
    rw [Nat.shiftRight_eq_div_pow]; omega
  have h5 : (3 : Nat) = 2 ^ 2 - 1 := rfl
  rw [Nat.testBit_and, h3, Nat.testBit_two_pow_sub_succ (by norm_num), h4,
    Nat.testBit_mul_pow_two, Nat.testBit_shiftRight, h5, Nat.testBit_two_pow_sub_one]
  by_cases h2 : 2 ≤ i
  · have e : 2 + (i - 2) = i := by omega
    by_cases h32 : i < 32
    · simp [h2, h32, e]
    · have hx : x.testBit i = false := by
        apply Nat.testBit_eq_false_of_lt
        calc x < 2 ^ 32 := h
          _ ≤ 2 ^ i := Nat.pow_le_pow_right (by norm_num) (by omega)
      simp [hx, e]
  · simp [h2]
    omega

/-- The rounding of `kmalloc` written with division: the two low bits are cleared. -/
theorem align4_eq (size : Nat) : align4 size = (size + 3) % SIZE_MOD / 4 * 4 :=
  and_mask _ (Nat.mod_lt _ (by decide))

theorem align4_of_le (size : Nat) (h : size + 3 < SIZE_MOD) :
    align4 size = (size + 3) / 4 * 4 := by
  rw [align4_eq, Nat.mod_eq_of_lt h]

theorem align4_lt (size : Nat) : align4 size < SIZE_MOD := by
  rw [align4_eq]
  have := Nat.mod_lt (size + 3) (show 0 < SIZE_MOD by decide)
  omega

/-! ## Lemmas on strings -/

theorem cstr_idem (a : List Nat) : cstr (cstr a) = cstr a := by
  induction a with
  | nil => rfl
  | cons x a ih =>
    by_cases hx : x = 0
    · simp [cstr, hx]
    · simp [cstr, hx, ih]

theorem strlen_eq (a : List Nat) : strlen a = (cstr a).length := by
  induction a with
  | nil => rfl
  | cons x a ih =>
    by_cases hx : x = 0
    · simp [cstr, strlen, hx]
    · simp [cstr, strlen, hx, ih]

theorem cstr_of_nul_free (a : List Nat) (h : 0 ∉ a) : cstr a = a := by
  induction a with
  | nil => rfl
  | cons x a ih =>
    simp only [List.mem_cons, not_or] at h
    have hx : x ≠ 0 := fun e => h.1 e.symm
    simp [cstr, hx, ih h.2]

theorem cstr_nul_free (a : List Nat) : 0 ∉ cstr a := by
  induction a with
  | nil => simp [cstr]
  | cons x a ih =>
    by_cases hx : x = 0
    · simp [cstr, hx]
    · simp only [cstr, hx, if_false, List.mem_cons, not_or]
      exact ⟨fun e => hx e.symm, ih⟩

theorem strcmp_eq_zero_iff (a b : List Nat) : strcmp a b = 0 ↔ cstr a = cstr b := by
  induction a generalizing b with
  | nil =>
    cases b with
    | nil => simp [strcmp, head0, cstr]
    | cons y b =>
      by_cases hy : y = 0
      · simp [strcmp, head0, cstr, hy]
      · simp [strcmp, head0, cstr, hy]
  | cons x a ih =>
    cases b with
    | nil =>
      by_cases hx : x = 0
      · simp [strcmp, cstr, hx]
      · simp [strcmp, cstr, hx]
    | cons y b =>
      by_cases hxy : x = y
      · subst hxy
        by_cases hx : x = 0
        · simp [strcmp, cstr, hx]
        · simp [strcmp, cstr, hx, ih b]
      · have hne : (x : Int) - (y : Int) ≠ 0 := by omega
        by_cases hx : x = 0
        · subst hx
          have hy : y ≠ 0 := fun e => hxy e.symm
          simp [strcmp, cstr, hy]
        · by_cases hy : y = 0
          · simp [strcmp, cstr, hx, hy]
          · simp [strcmp, cstr, hx, hy, hxy, hne]

theorem is_named_iff (name : List Nat) (f : File) :
    is_named name f = true ↔ f.used = true ∧ cstr f.name = cstr name := by
  simp [is_named, strcmp_eq_zero_iff]

theorem strcpy_other (mem : Nat → Nat) (dest : Nat) (src : List Nat) (x : Nat)
    (hx : x < dest ∨ dest + strlen src < x) : strcpy mem dest src x = mem x := by
  induction src generalizing mem dest with
  | nil =>
    simp only [strcpy, strlen] at hx ⊢
    rw [Function.update_noteq (by omega)]
  | cons c cs ih =>
    by_cases hc : c = 0
    · simp only [strcpy, strlen, hc, if_true] at hx ⊢
      rw [Function.update_noteq (by omega)]
    · simp only [strcpy, strlen, hc, if_false] at hx ⊢
      rw [ih _ _ (by omega), Function.update_noteq (by omega)]

theorem strcpy_bytes (mem : Nat → Nat) (dest : Nat) (src : List Nat) :
    (List.range (strlen src)).map (fun k => strcpy mem dest src (dest + k)) = cstr src := by
  induction src generalizing mem dest with
  | nil => rfl
  | cons c cs ih =>
    by_cases hc : c = 0
    · simp [strcpy, strlen, cstr, hc]
    · simp only [strcpy, strlen, cstr, hc, if_false]
      rw [List.range_succ_eq_map, List.map_cons, List.map_map]
      congr 1
      · rw [Nat.add_zero, strcpy_other _ _ _ _ (Or.inl (by omega))]
        simp
      · rw [← ih (Function.update mem dest c) (dest + 1)]
        apply List.map_congr_left
        intro k _
        simp only [Function.comp]
        congr 1
        omega

theorem strcpy_terminator (mem : Nat → Nat) (dest : Nat) (src : List Nat) :
    strcpy mem dest src (dest + strlen src) = 0 := by
  induction src generalizing mem dest with
  | nil => simp [strcpy, strlen]
  | cons c cs ih =>
    by_cases hc : c = 0
    · subst hc
      simp [strcpy, strlen]
    · simp only [strcpy, strlen, hc, if_false]
      have := ih (Function.update mem dest c) (dest + 1)
      rw [show dest + (strlen cs + 1) = dest + 1 + strlen cs by omega]
      exact this

/-! ## The allocator invariant is preserved -/

theorem total_used_add_free (l : List MemBlock) :
    total used_size l + total free_size l = total MemBlock.size l := by
  induction l with
  | nil => rfl
  | cons b l ih =>
    simp only [total_cons, used_size, free_size]
    split <;> omega

theorem memory_init_inv : AllocInv memory_init := by
  refine ⟨rfl, ?_, rfl⟩
  intro x
  simp only [memory_init, total_cons, total_nil, covers]
  split <;> omega

theorem kmalloc_inv (s : Allocator) (size : Nat) (h : AllocInv s) :
    AllocInv (kmalloc s size).2 := by
  unfold kmalloc
  split
  · exact h
  · simp only
    split
    · exact h
    · rename_i i b hm
      obtain ⟨hp, hget, -⟩ := first_match_some _ _ _ _ hm
      simp only [fits, Bool.and_eq_true, Bool.not_eq_true', decide_eq_true_eq] at hp
      obtain ⟨hfree, hle⟩ := hp
      have hsz := h.sum_size
      have hcnt := h.counter
      have huf := total_used_add_free s.mem_blocks
      have hfb := total_ge free_size _ _ _ hget
      have hub : used_size b = 0 := by simp [used_size, hfree]
      simp only [free_size, hfree, Bool.false_eq_true, if_false] at hfb
      have hM : MEMORY_POOL_SIZE < SIZE_MOD := by decide
      split
      · refine ⟨?_, ?_, ?_⟩
        · have := total_set MemBlock.size _ _ _
            { addr := b.addr, size := align4 size, used := true } hget
          simp only [total_append, total_cons, total_nil] at this ⊢
          omega
        · intro x
          have := total_set (covers x) _ _ _
            { addr := b.addr, size := align4 size, used := true } hget
          have hd := h.disjoint x
          simp only [total_append, total_cons, total_nil]
          simp only [covers] at this ⊢
          split at this <;> split at this <;> split <;> omega
        · have := total_set used_size _ _ _
            { addr := b.addr, size := align4 size, used := true } hget
          simp only [total_append, total_cons, total_nil]
          simp only [used_size, if_true, Bool.false_eq_true, if_false] at this ⊢
          simp only [used_size] at hub
          rw [Nat.mod_eq_of_lt (by omega)]
          omega
      · refine ⟨?_, ?_, ?_⟩
        · have := total_set MemBlock.size _ _ _
            { addr := b.addr, size := b.size, used := true } hget
          simp only at this ⊢
          omega
        · intro x
          have := total_set (covers x) _ _ _
            { addr := b.addr, size := b.size, used := true } hget
          have hd := h.disjoint x
          simp only [covers] at this ⊢
          omega
        · have := total_set used_size _ _ _
            { addr := b.addr, size := b.size, used := true } hget
          simp only [used_size, if_true] at this ⊢
          simp only [used_size] at hub
          rw [Nat.mod_eq_of_lt (by omega)]
          omega

theorem kfree_inv (s : Allocator) (ptr : Option Nat) (h : AllocInv s) :
    AllocInv (kfree s ptr) := by
  unfold kfree
  split
  · exact h
  · split
    · exact h
    · rename_i p i b hm
      obtain ⟨hp, hget, -⟩ := first_match_some _ _ _ _ hm
      simp only [Bool.and_eq_true, decide_eq_true_eq] at hp
      obtain ⟨-, hused⟩ := hp
      have hsz := h.sum_size
      have hcnt := h.counter
      have huf := total_used_add_free s.mem_blocks
      have hub := total_ge used_size _ _ _ hget
      have hM : MEMORY_POOL_SIZE < SIZE_MOD := by decide
      refine ⟨?_, ?_, ?_⟩
      · have := total_set MemBlock.size _ _ _
          { addr := b.addr, size := b.size, used := false } hget
        simp only at this ⊢
        omega
      · intro x
        have := total_set (covers x) _ _ _
          { addr := b.addr, size := b.size, used := false } hget
        have hd := h.disjoint x
        simp only [covers] at this ⊢
        omega
      · have := total_set used_size _ _ _
          { addr := b.addr, size := b.size, used := false } hget
        simp only [used_size, hused, if_true, Bool.false_eq_true, if_false] at this hub ⊢
        have e : s.total_allocated + SIZE_MOD - b.size =
            (s.total_allocated - b.size) + SIZE_MOD := by omega
        rw [e, Nat.add_mod_right, Nat.mod_eq_of_lt (by omega)]
        omega

theorem reachable_inv (s : Allocator) (h : Reachable s) : AllocInv s := by
  induction h with
  | init => exact memory_init_inv
  | malloc s size _ _ ih => exact kmalloc_inv s size ih
  | free s ptr _ ih => exact kfree_inv s ptr ih

/-! ## The text of `kmalloc` and `kfree` as equations -/

/-- What a call of `kmalloc` does, read off its text: a `NULL` result leaves the state
alone; otherwise the first free block that is large enough for the rounded request is
taken, and it is split exactly when the guard of the inner `if` holds. -/
theorem kmalloc_spec (s : Allocator) (size : Nat) :
    ((kmalloc s size).1 = none ∧ (kmalloc s size).2 = s ∧
      (size = 0 ∨ ∀ b ∈ s.mem_blocks, fits (align4 size) b = false)) ∨
    (size ≠ 0 ∧ ∃ i b, first_match (fits (align4 size)) s.mem_blocks = some (i, b) ∧
      (kmalloc s size).1 = some b.addr ∧
      (((align4 size + 16) % SIZE_MOD < b.size ∧ s.mem_blocks.length < MAX_BLOCKS ∧
          (kmalloc s size).2 =
            { mem_blocks :=
                s.mem_blocks.set i { addr := b.addr, size := align4 size, used := true } ++
                  [{ addr := b.addr + align4 size, size := b.size - align4 size,
                     used := false }],
              total_allocated := (s.total_allocated + align4 size) % SIZE_MOD }) ∨
        (¬ ((align4 size + 16) % SIZE_MOD < b.size ∧ s.mem_blocks.length < MAX_BLOCKS) ∧
          (kmalloc s size).2 =
            { mem_blocks :=
                s.mem_blocks.set i { addr := b.addr, size := b.size, used := true },
              total_allocated := (s.total_allocated + b.size) % SIZE_MOD }))) := by
  unfold kmalloc
  by_cases h0 : size = 0
  · simp [h0]
  · simp only [h0, if_false]
    cases hm : first_match (fits (align4 size)) s.mem_blocks with
    | none =>
      left
      refine ⟨rfl, rfl, Or.inr ?_⟩
      exact (first_match_none _ _).mp hm
    | some r =>
      obtain ⟨i, b⟩ := r
      right
      refine ⟨h0, i, b, rfl, ?_⟩
      by_cases hc : (align4 size + 16) % SIZE_MOD < b.size ∧ s.mem_blocks.length < MAX_BLOCKS
      · simp only [hc, and_self, if_true, true_and]
        exact Or.inl trivial
      · simp only [hc, if_false, not_false_eq_true, true_and]
        exact Or.inr trivial

theorem kmalloc_none (s : Allocator) (size : Nat) (h : (kmalloc s size).1 = none) :
    (kmalloc s size).2 = s := by
  rcases kmalloc_spec s size with h1 | ⟨_, i, b, _, h2, _⟩
  · exact h1.2.1
  · rw [h2] at h; exact absurd h (by simp)

theorem fits_iff (r : Nat) (b : MemBlock) : fits r b = true ↔ b.used = false ∧ r ≤ b.size := by
  simp [fits]

theorem map_set_eq {α β : Type} (f : α → β) (l : List α) (i : Nat) (b v : α)
    (h : l[i]? = some b) (hf : f v = f b) : (l.set i v).map f = l.map f := by
  induction l generalizing i with
  | nil => simp
  | cons a l ih =>
    cases i with
    | zero =>
      simp at h
      subst h
      simp [hf]
    | succ i =>
      simp at h
      simp [ih i h]

/-- What a call of `kfree` does, read off its text. -/
theorem kfree_spec (s : Allocator) (ptr : Option Nat) :
    (kfree s ptr = s ∧
      (ptr = none ∨ ∀ b ∈ s.mem_blocks, b.used = true → some b.addr ≠ ptr)) ∨
    (∃ (i : Nat) (b : MemBlock),
      first_match (fun c => decide (some c.addr = ptr) && c.used) s.mem_blocks = some (i, b) ∧
      kfree s ptr =
        { mem_blocks := s.mem_blocks.set i { addr := b.addr, size := b.size, used := false },
          total_allocated := (s.total_allocated + SIZE_MOD - b.size) % SIZE_MOD }) := by
  unfold kfree
  cases ptr with
  | none => exact Or.inl ⟨rfl, Or.inl rfl⟩
  | some p =>
    have e : (fun c : MemBlock => decide (some c.addr = some p) && c.used) =
        (fun c : MemBlock => decide (c.addr = p) && c.used) := by
      funext c
      simp
    rw [e]
    cases hm : first_match (fun b => decide (b.addr = p) && b.used) s.mem_blocks with
    | none =>
      left
      refine ⟨by simp only [hm], Or.inr ?_⟩
      intro b hb hu
      have := (first_match_none _ _).mp hm b hb
      simp only [hu, Bool.and_true, decide_eq_false_iff_not] at this
      simpa using this
    | some r =>
      obtain ⟨i, b⟩ := r
      exact Or.inr ⟨i, b, rfl, by simp only [hm]⟩

/-! ## Allocator steps as the object store sees them -/

theorem total_mono {α : Type} (g h : α → Nat) (l : List α) (hgh : ∀ x ∈ l, g x ≤ h x) :
    total g l ≤ total h l := by
  induction l with
  | nil => exact Nat.le_refl _
  | cons a l ih =>
    simp only [total_cons]
    have h1 := hgh a (List.mem_cons_self _ _)
    have h2 := ih (fun x hx => hgh x (List.mem_cons_of_mem _ hx))
    omega

theorem total_eq_zero {α : Type} (g : α → Nat) (l : List α) (h0 : ∀ x ∈ l, g x = 0) :
    total g l = 0 := by
  induction l with
  | nil => rfl
  | cons a l ih =>
    simp only [total_cons]
    have h1 := h0 a (List.mem_cons_self _ _)
    have h2 := ih (fun x hx => h0 x (List.mem_cons_of_mem _ hx))
    omega

theorem mem_set_cases {α : Type} (l : List α) (i : Nat) (v x : α) (hx : x ∈ l.set i v) :
    x = v ∨ ∃ k, k ≠ i ∧ l[k]? = some x := by
  obtain ⟨k, hk⟩ := List.getElem?_of_mem hx
  by_cases hki : i = k
  · subst hki
    left
    rw [List.getElem?_eq_some_iff] at hk
    obtain ⟨hlt, hk⟩ := hk
    rw [List.getElem_set_self] at hk
    exact hk.symm
  · right
    rw [List.getElem?_set_ne hki] at hk
    exact ⟨k, fun e => hki e.symm, hk⟩

theorem used_at_le_one (a : Allocator) (hd : ∀ x, total (covers x) a.mem_blocks ≤ 1)
    (hpos : ∀ b ∈ a.mem_blocks, 0 < b.size) (p : Nat) :
    total (used_at p) a.mem_blocks ≤ 1 := by
  refine le_trans (total_mono _ (covers p) _ ?_) (hd p)
  intro b hb
  have := hpos b hb
  simp only [used_at, covers]
  split <;> split <;> omega

/-- A successful `kmalloc` of `n` bytes, `0 < n` and `n + 19 < SIZE_MOD`, in a state with
the allocator invariant and positive block lengths. -/
theorem kmalloc_store_step (a : Allocator) (n p : Nat) (hn : 0 < n) (hn2 : n + 19 < SIZE_MOD)
    (hpos : ∀ b ∈ a.mem_blocks, 0 < b.size)
    (hin : ∀ b ∈ a.mem_blocks, b.addr + b.size ≤ MEMORY_POOL_SIZE)
    (hp : (kmalloc a n).1 = some p) :
    (∀ b ∈ (kmalloc a n).2.mem_blocks, 0 < b.size) ∧
    (∀ b ∈ (kmalloc a n).2.mem_blocks, b.addr + b.size ≤ MEMORY_POOL_SIZE) ∧
    (∀ q, total (used_at q) (kmalloc a n).2.mem_blocks =
      total (used_at q) a.mem_blocks + (if q = p then 1 else 0)) ∧
    (∃ b1 ∈ (kmalloc a n).2.mem_blocks, b1.used = true ∧ b1.addr = p ∧ n ≤ b1.size) ∧
    (∀ c ∈ a.mem_blocks, c.used = true → c ∈ (kmalloc a n).2.mem_blocks) ∧
    (∃ b ∈ a.mem_blocks, b.used = false ∧ b.addr = p ∧ n ≤ b.size) := by
  have hr : align4 n = spec_round_up4 n := align4_of_le n (by omega)
  have hrn : n ≤ spec_round_up4 n := by unfold spec_round_up4; omega
  rcases kmalloc_spec a n with ⟨h1, _, _⟩ | ⟨_, i, b, hm, hp2, hcase⟩
  · rw [h1] at hp
    exact absurd hp (by simp)
  · rw [hp2] at hp
    have hpb : b.addr = p := Option.some.inj hp
    obtain ⟨hfit, hget, -⟩ := first_match_some _ _ _ _ hm
    obtain ⟨hfree, hle⟩ := (fits_iff _ _).mp hfit
    have hbmem := List.getElem?_mem hget
    have hbpos := hpos b hbmem
    have hbin := hin b hbmem
    rw [hr] at hcase hle
    have hold : ∃ b ∈ a.mem_blocks, b.used = false ∧ b.addr = p ∧ n ≤ b.size :=
      ⟨b, hbmem, hfree, hpb, by omega⟩
    rcases hcase with ⟨hgt, _, hst⟩ | ⟨_, hst⟩
    · rw [Nat.mod_eq_of_lt (by unfold spec_round_up4; omega)] at hgt
      rw [hst]
      simp only
      refine ⟨?_, ?_, ?_, ?_, ?_, hold⟩
      · intro c hc
        rcases List.mem_append.mp hc with hc | hc
        · rcases mem_set_cases _ _ _ _ hc with rfl | ⟨k, _, hk⟩
          · simp only; omega
          · exact hpos c (List.getElem?_mem hk)
        · simp only [List.mem_singleton] at hc
          subst hc
          simp only; omega
      · intro c hc
        rcases List.mem_append.mp hc with hc | hc
        · rcases mem_set_cases _ _ _ _ hc with rfl | ⟨k, _, hk⟩
          · simp only; omega
          · exact hin c (List.getElem?_mem hk)
        · simp only [List.mem_singleton] at hc
          subst hc
          simp only; omega
      · intro q
        have := total_set (used_at q) _ _ _
          { addr := b.addr, size := spec_round_up4 n, used := true } hget
        simp only [total_append, total_cons, total_nil]
        simp only [used_at, hfree, hpb, Bool.false_eq_true, false_and, if_false, true_and]
          at this ⊢
        have e : (p = q) = (q = p) := propext ⟨Eq.symm, Eq.symm⟩
        simp only [e] at this
        omega
      · refine ⟨{ addr := b.addr, size := spec_round_up4 n, used := true }, ?_, rfl, hpb, hrn⟩
        exact List.mem_append_left _ (mem_set_self _ _ _ _ hget)
      · intro c hc hu
        refine List.mem_append_left _ (mem_set_of_ne _ _ _ _ _ hget hc ?_)
        rintro rfl
        rw [hfree] at hu
        exact absurd hu (by simp)
    · rw [hst]
      simp only
      refine ⟨?_, ?_, ?_, ?_, ?_, hold⟩
      · intro c hc
        rcases mem_set_cases _ _ _ _ hc with rfl | ⟨k, _, hk⟩
        · exact hbpos
        · exact hpos c (List.getElem?_mem hk)
      · intro c hc
        rcases mem_set_cases _ _ _ _ hc with rfl | ⟨k, _, hk⟩
        · exact hbin
        · exact hin c (List.getElem?_mem hk)
      · intro q
        have := total_set (used_at q) _ _ _
          { addr := b.addr, size := b.size, used := true } hget
        simp only [used_at, hfree, hpb, Bool.false_eq_true, false_and, if_false, true_and]
          at this ⊢
        have e : (p = q) = (q = p) := propext ⟨Eq.symm, Eq.symm⟩
        simp only [e] at this
        omega
      · refine ⟨{ addr := b.addr, size := b.size, used := true }, ?_, rfl, hpb, by
          simp only; omega⟩
        exact mem_set_self _ _ _ _ hget
      · intro c hc hu
        refine mem_set_of_ne _ _ _ _ _ hget hc ?_
        rintro rfl
        rw [hfree] at hu
        exact absurd hu (by simp)

/-- A call `kfree(memory_pool + p)` in a state where a used block starts at `p`. -/
theorem kfree_store_step (a : Allocator) (p : Nat)
    (hex : ∃ c ∈ a.mem_blocks, c.used = true ∧ c.addr = p) :
    ∃ (i : Nat) (b : MemBlock), a.mem_blocks[i]? = some b ∧ b.used = true ∧ b.addr = p ∧
      kfree a (some p) =
        { mem_blocks := a.mem_blocks.set i { addr := b.addr, size := b.size, used := false },
          total_allocated := (a.total_allocated + SIZE_MOD - b.size) % SIZE_MOD } ∧
      (∀ q, total (used_at q) (kfree a (some p)).mem_blocks + (if q = p then 1 else 0) =
        total (used_at q) a.mem_blocks) ∧
      (∀ c ∈ a.mem_blocks, c.used = true → c.addr ≠ p → c ∈ (kfree a (some p)).mem_blocks) ∧
      (∀ c ∈ (kfree a (some p)).mem_blocks, ∃ c' ∈ a.mem_blocks,
        c'.addr = c.addr ∧ c'.size = c.size) := by
  rcases kfree_spec a (some p) with ⟨_, h2⟩ | ⟨i, b, hm, hst⟩
  · obtain ⟨c, hc, hu, hcp⟩ := hex
    rcases h2 with h2 | h2
    · exact absurd h2 (by simp)
    · exact absurd (by rw [hcp]) (h2 c hc hu)
  · obtain ⟨hp, hget, -⟩ := first_match_some _ _ _ _ hm
    simp only [Bool.and_eq_true, decide_eq_true_eq, Option.some.injEq] at hp
    obtain ⟨hbp, hu⟩ := hp
    refine ⟨i, b, hget, hu, hbp, hst, ?_, ?_, ?_⟩
    · intro q
      rw [hst]
      have := total_set (used_at q) _ _ _
        { addr := b.addr, size := b.size, used := false } hget
      simp only [used_at, hu, hbp, Bool.false_eq_true, false_and, if_false, true_and]
        at this ⊢
      have e : (p = q) = (q = p) := propext ⟨Eq.symm, Eq.symm⟩
      simp only [e] at this
      omega
    · intro c hc _ hcp
      rw [hst]
      refine mem_set_of_ne _ _ _ _ _ hget hc ?_
      rintro rfl
      exact hcp hbp
    · intro c hc
      rw [hst] at hc
      rcases mem_set_cases _ _ _ _ hc with rfl | ⟨k, _, hk⟩
      · exact ⟨b, List.getElem?_mem hget, rfl, rfl⟩
      · exact ⟨c, List.getElem?_mem hk, rfl, rfl⟩

/-! ## The text of the object store functions as equations -/

/-- The five outcomes of `fs_create`. -/
theorem fs_create_spec (s : Store) (name content : List Nat) :
    ((∃ r, first_match (is_named name) s.files = some r) ∧
      fs_create s name content = (-1, s)) ∨
    (first_match (is_named name) s.files = none ∧
      ((first_match (fun f => !f.used) s.files = none ∧ fs_create s name content = (-4, s)) ∨
       (∃ (i : Nat) (f : File), first_match (fun f => !f.used) s.files = some (i, f) ∧
          ((MAX_FILE_SIZE < strlen content ∧ fs_create s name content = (-2, s)) ∨
           (strlen content ≤ MAX_FILE_SIZE ∧
              (kmalloc s.alloc (strlen content + 1)).1 = none ∧
              fs_create s name content =
                (-3, { alloc := s.alloc, memory_pool := s.memory_pool,
                       files := s.files.set i { f with content := none } })) ∨
           (strlen content ≤ MAX_FILE_SIZE ∧
              ∃ p, (kmalloc s.alloc (strlen content + 1)).1 = some p ∧
              fs_create s name content =
                (0, { alloc := (kmalloc s.alloc (strlen content + 1)).2,
                      memory_pool := strcpy s.memory_pool p content,
                      files := s.files.set i
                        { name := cstr name, content := some p, size := strlen content,
                          used := true } })))))) := by
  unfold fs_create
  cases h1 : first_match (is_named name) s.files with
  | some r => exact Or.inl ⟨⟨r, rfl⟩, rfl⟩
  | none =>
    right
    refine ⟨rfl, ?_⟩
    cases h2 : first_match (fun f => !f.used) s.files with
    | none => exact Or.inl ⟨rfl, rfl⟩
    | some r =>
      obtain ⟨i, f⟩ := r
      right
      refine ⟨i, f, rfl, ?_⟩
      by_cases hlen : MAX_FILE_SIZE < strlen content
      · left
        refine ⟨hlen, ?_⟩
        simp only [gt_iff_lt, hlen, if_true]
      · right
        have hle : strlen content ≤ MAX_FILE_SIZE := Nat.le_of_not_lt hlen
        simp only [gt_iff_lt, hlen, if_false]
        cases hk : kmalloc s.alloc (strlen content + 1) with
        | mk r a =>
          cases r with
          | none =>
            left
            refine ⟨hle, rfl, ?_⟩
            have := kmalloc_none s.alloc (strlen content + 1) (by rw [hk])
            rw [hk] at this
            simp only at this
            rw [this]
          | some p => exact Or.inr ⟨hle, p, rfl, rfl⟩

/-- The two outcomes of `fs_delete`. -/
theorem fs_delete_spec (s : Store) (name : List Nat) :
    (first_match (is_named name) s.files = none ∧ fs_delete s name = (-1, s)) ∨
    (∃ (i : Nat) (f : File), first_match (is_named name) s.files = some (i, f) ∧
      fs_delete s name =
        (0, { alloc := kfree s.alloc f.content, memory_pool := s.memory_pool,
              files := s.files.set i { f with used := false } })) := by
  unfold fs_delete
  cases h1 : first_match (is_named name) s.files with
  | none => exact Or.inl ⟨rfl, rfl⟩
  | some r =>
    obtain ⟨i, f⟩ := r
    exact Or.inr ⟨i, f, rfl, rfl⟩

/-! ## The object store invariant is preserved -/

theorem boot_files_unused : ∀ f ∈ boot.files, f.used = false := by decide

theorem boot_inv : StoreInv boot := by
  refine ⟨memory_init_inv, by decide, by decide, ?_, ?_, ?_, ?_⟩
  · intro p
    rw [total_eq_zero]
    · exact Nat.zero_le _
    · intro f hf
      simp [file_at, boot_files_unused f hf]
  · intro f hf hu
    rw [boot_files_unused f hf] at hu
    exact absurd hu (by simp)
  · intro n
    rw [total_eq_zero]
    · exact Nat.zero_le _
    · intro f hf
      simp [named, boot_files_unused f hf]
  · intro f hf hu
    rw [boot_files_unused f hf] at hu
    exact absurd hu (by simp)

theorem fs_create_inv (s : Store) (name content : List Nat) (h : StoreInv s) :
    StoreInv (fs_create s name content).2 := by
  rcases fs_create_spec s name content with ⟨_, hst⟩ | ⟨hnone, hrest⟩
  · rw [hst]; exact h
  · rcases hrest with ⟨_, hst⟩ | ⟨i, f, hslot, hrest⟩
    · rw [hst]; exact h
    · obtain ⟨hfu, hget, -⟩ := first_match_some _ _ _ _ hslot
      simp only [Bool.not_eq_true'] at hfu
      rcases hrest with ⟨_, hst⟩ | ⟨_, _, hst⟩ | ⟨hle, p, hk, hst⟩
      · rw [hst]; exact h
      · rw [hst]
        refine ⟨h.alloc, h.pos, h.in_pool, ?_, ?_, ?_, ?_⟩
        · intro q
          have := total_set (file_at q) _ _ _ { f with content := none } hget
          have := h.own q
          simp only [file_at, hfu, Bool.false_eq_true, false_and, if_false] at *
          omega
        · intro g hg hu
          rcases mem_set_cases _ _ _ _ hg with rfl | ⟨k, _, hk⟩
          · simp only [hfu] at hu
            exact absurd hu (by simp)
          · exact h.room g (List.getElem?_mem hk) hu
        · intro n
          have := total_set (named n) _ _ _ { f with content := none } hget
          have := h.names n
          simp only [named, hfu, Bool.false_eq_true, false_and, if_false] at *
          omega
        · intro g hg hu
          rcases mem_set_cases _ _ _ _ hg with rfl | ⟨k, _, hk⟩
          · simp only [hfu] at hu
            exact absurd hu (by simp)
          · exact h.nul_free g (List.getElem?_mem hk) hu
      · have hM : MAX_FILE_SIZE + 20 < SIZE_MOD := by decide
        obtain ⟨hpos, hin, hused, ⟨b1, hb1, hb1u, hb1a, hb1s⟩, hkeep, -⟩ :=
          kmalloc_store_step s.alloc (strlen content + 1) p (by omega) (by omega)
            h.pos h.in_pool hk
        rw [hst]
        refine ⟨kmalloc_inv _ _ h.alloc, hpos, hin, ?_, ?_, ?_, ?_⟩
        · intro q
          have := total_set (file_at q) _ _ _
            { name := cstr name, content := some p, size := strlen content, used := true } hget
          have := h.own q
          have := hused q
          simp only [file_at, hfu, Bool.false_eq_true, false_and, if_false, true_and,
            Option.some.injEq] at *
          have e : (p = q) = (q = p) := propext ⟨Eq.symm, Eq.symm⟩
          simp only [e] at *
          omega
        · intro g hg hu
          rcases mem_set_cases _ _ _ _ hg with rfl | ⟨k, _, hk⟩
          · exact ⟨b1, hb1, hb1u, by simp [hb1a], by simpa using hb1s⟩
          · obtain ⟨c, hc, hcu, hcc, hcs⟩ := h.room g (List.getElem?_mem hk) hu
            exact ⟨c, hkeep c hc hcu, hcu, hcc, hcs⟩
        · intro n
          have := total_set (named n) _ _ _
            { name := cstr name, content := some p, size := strlen content, used := true } hget
          have hn := h.names n
          simp only [named, hfu, Bool.false_eq_true, false_and, if_false, true_and] at *
          by_cases hnn : cstr name = n
          · have h0 : total (named n) s.files = 0 := by
              apply total_eq_zero
              intro g hg
              have hng := (first_match_none _ _).mp hnone g hg
              simp only [named]
              split
              · rename_i hgu
                have : is_named name g = true := by
                  rw [is_named_iff]
                  refine ⟨hgu.1, ?_⟩
                  rw [h.nul_free g hg hgu.1, hgu.2, hnn]
                rw [hng] at this
                exact absurd this (by simp)
              · rfl
            simp only [named] at h0
            simp only [hnn, if_true] at *
            omega
          · simp only [hnn, if_false] at *
            omega
        · intro g hg hu
          rcases mem_set_cases _ _ _ _ hg with rfl | ⟨k, _, hk⟩
          · exact cstr_idem name
          · exact h.nul_free g (List.getElem?_mem hk) hu

/-- In a state with the invariant two different live slots have different content
pointers. -/
theorem content_ne_of_ne (s : Store) (h : StoreInv s) (i k : Nat) (f g : File) (hik : k ≠ i)
    (hf : s.files[i]? = some f) (hg : s.files[k]? = some g) (hfu : f.used = true)
    (hgu : g.used = true) (p : Nat) (hfp : f.content = some p) : g.content ≠ some p := by
  intro hgp
  have h2 := total_two_le (file_at p) _ k i g f hik hg hf
  have h1 := h.own p
  have h0 := used_at_le_one s.alloc h.alloc.disjoint h.pos p
  simp only [file_at, hfu, hgu, hfp, hgp, and_self, if_true] at h2
  omega

theorem fs_delete_inv (s : Store) (name : List Nat) (h : StoreInv s) :
    StoreInv (fs_delete s name).2 := by
  rcases fs_delete_spec s name with ⟨_, hst⟩ | ⟨i, f, hm, hst⟩
  · rw [hst]; exact h
  · obtain ⟨hnamed, hget, -⟩ := first_match_some _ _ _ _ hm
    obtain ⟨hfu, -⟩ := (is_named_iff _ _).mp hnamed
    obtain ⟨c, hc, hcu, hcc, -⟩ := h.room f (List.getElem?_mem hget) hfu
    obtain ⟨j, b, -, -, -, -, hused, hkeep, hsame⟩ :=
      kfree_store_step s.alloc c.addr ⟨c, hc, hcu, rfl⟩
    rw [hst, hcc]
    refine ⟨kfree_inv s.alloc (some c.addr) h.alloc, ?_, ?_, ?_, ?_, ?_, ?_⟩
    · intro d hd
      obtain ⟨d', hd', _, hs'⟩ := hsame d hd
      have := h.pos d' hd'
      omega
    · intro d hd
      obtain ⟨d', hd', ha', hs'⟩ := hsame d hd
      have := h.in_pool d' hd'
      omega
    · intro q
      have := total_set (file_at q) _ _ _ { f with used := false } hget
      have := h.own q
      have := hused q
      simp only [file_at, hfu, hcc, Bool.false_eq_true, false_and, if_false, true_and,
        Option.some.injEq] at *
      have e : (c.addr = q) = (q = c.addr) := propext ⟨Eq.symm, Eq.symm⟩
      simp only [e] at *
      omega
    · intro g hg hu
      rcases mem_set_cases _ _ _ _ hg with rfl | ⟨k, hki, hk⟩
      · exact absurd hu (by simp)
      · obtain ⟨d, hd, hdu, hdc, hds⟩ := h.room g (List.getElem?_mem hk) hu
        refine ⟨d, hkeep d hd hdu ?_, hdu, hdc, hds⟩
        intro hda
        exact content_ne_of_ne s h i k f g hki hget hk hfu hu c.addr hcc (by rw [hdc, hda])
    · intro n
      have := total_set (named n) _ _ _ { f with used := false } hget
      have := h.names n
      simp only [named, hcc, Bool.false_eq_true, false_and, if_false] at *
      omega
    · intro g hg hu
      rcases mem_set_cases _ _ _ _ hg with rfl | ⟨k, _, hk⟩
      · exact absurd hu (by simp)
      · exact h.nul_free g (List.getElem?_mem hk) hu

theorem store_reachable_inv (s : Store) (h : StoreReachable s) : StoreInv s := by
  induction h with
  | boot => exact boot_inv
  | create s name content _ _ ih => exact fs_create_inv s name content ih
  | delete s name _ ih => exact fs_delete_inv s name ih

/-! ## Lookups after a slot update -/

theorem first_match_set_hit {α : Type} (p : α → Bool) (l : List α) (i : Nat) (b v : α)
    (hall : ∀ x ∈ l, p x = false) (hget : l[i]? = some b) (hv : p v = true) :
    first_match p (l.set i v) = some (i, v) := by
  induction l generalizing i with
  | nil => simp at hget
  | cons a l ih =>
    cases i with
    | zero => simp [first_match, hv]
    | succ i =>
      simp only [List.getElem?_cons_succ] at hget
      have ha : p a = false := hall a (List.mem_cons_self _ _)
      have := ih i (fun x hx => hall x (List.mem_cons_of_mem _ hx)) hget
      simp [first_match, ha, this]

theorem first_match_set_miss {α : Type} (p : α → Bool) (l : List α) (i : Nat) (b v : α)
    (hget : l[i]? = some b) (hb : p b = false) (hv : p v = false) :
    first_match p (l.set i v) = first_match p l := by
  induction l generalizing i with
  | nil => simp at hget
  | cons a l ih =>
    cases i with
    | zero =>
      simp only [List.getElem?_cons_zero, Option.some.injEq] at hget
      subst hget
      simp [first_match, hb, hv]
    | succ i =>
      simp only [List.getElem?_cons_succ] at hget
      simp [first_match, ih i hget]

theorem fs_read_none_iff (s : Store) (h : StoreInv s) (name : List Nat) :
    fs_read s name = none ↔ ¬ ∃ f ∈ s.files, f.used = true ∧ f.name = cstr name := by
  unfold fs_read
  cases hm : first_match (is_named name) s.files with
  | none =>
    simp only [true_iff]
    rintro ⟨f, hf, hu, hn⟩
    have := (first_match_none _ _).mp hm f hf
    have h2 : is_named name f = true := by
      rw [is_named_iff]
      exact ⟨hu, by rw [hn, cstr_idem]⟩
    rw [this] at h2
    exact absurd h2 (by simp)
  | some r =>
    obtain ⟨i, f⟩ := r
    obtain ⟨hp, hget, -⟩ := first_match_some _ _ _ _ hm
    obtain ⟨hu, hn⟩ := (is_named_iff _ _).mp hp
    have hf := List.getElem?_mem hget
    constructor
    · intro hnone
      exact absurd hnone (by simp)
    · intro hne
      exact absurd ⟨f, hf, hu, by rw [← h.nul_free f hf hu, hn]⟩ hne

/-! ## Live contents and later writes -/

/-- A successful allocation for a new content writes only outside the buffers of the
live slots. -/
theorem create_preserves_bytes (s : Store) (h : StoreInv s) (content : List Nat) (p : Nat)
    (hle : strlen content ≤ MAX_FILE_SIZE)
    (hk : (kmalloc s.alloc (strlen content + 1)).1 = some p)
    (f : File) (hf : f ∈ s.files) (hu : f.used = true) :
    f.bytes (strcpy s.memory_pool p content) = f.bytes s.memory_pool := by
  have hM : MAX_FILE_SIZE + 20 < SIZE_MOD := by decide
  obtain ⟨-, -, -, -, -, ⟨b, hb, hbf, hba, hbs⟩⟩ :=
    kmalloc_store_step s.alloc (strlen content + 1) p (by omega) (by omega) h.pos h.in_pool hk
  obtain ⟨c, hc, hcu, hcc, hcs⟩ := h.room f hf hu
  simp only [File.bytes, hcc]
  apply List.map_congr_left
  intro k hkr
  have hkl : k < f.size := List.mem_range.mp hkr
  apply strcpy_other
  by_contra hcon
  have hcb : c ≠ b := by
    rintro rfl
    rw [hbf] at hcu
    exact absurd hcu (by simp)
  have h2 := total_mem_two_le (covers (c.addr + k)) _ c b hcb hc hb
  have h1 := h.alloc.disjoint (c.addr + k)
  have e1 : covers (c.addr + k) c = 1 := by
    simp only [covers]
    rw [if_pos ⟨by omega, by omega⟩]
  have e2 : covers (c.addr + k) b = 1 := by
    simp only [covers]
    rw [if_pos ⟨by omega, by omega⟩]
  omega

/-- Two blocks of positive length at different table positions, in a state where every
offset lies in at most one block, have ranges that do not meet. -/
theorem blocks_apart (l : List MemBlock) (hd : ∀ x, total (covers x) l ≤ 1) (k m : Nat)
    (b c : MemBlock) (hkm : k ≠ m) (hb : l[k]? = some b) (hc : l[m]? = some c)
    (hbp : 0 < b.size) (hcp : 0 < c.size) :
    b.addr + b.size ≤ c.addr ∨ c.addr + c.size ≤ b.addr := by
  by_contra hcon
  have h2 := total_two_le (covers (max b.addr c.addr)) l k m b c hkm hb hc
  have h1 := hd (max b.addr c.addr)
  have e1 : covers (max b.addr c.addr) b = 1 := by
    simp only [covers]
    rw [if_pos ⟨by omega, by omega⟩]
  have e2 : covers (max b.addr c.addr) c = 1 := by
    simp only [covers]
    rw [if_pos ⟨by omega, by omega⟩]
  omega

/-! ## Claims about the allocator -/

/-- C1: in every state reachable from `memory_init` by `kmalloc` and `kfree` calls the
lengths of all descriptors, used or free, sum to at most `MEMORY_POOL_SIZE`, and no offset
lies in the half-open ranges `[addr, addr + size)` of two different descriptors. -/
theorem allocator_invariant (s : Allocator) (h : Reachable s) :
    (s.mem_blocks.map MemBlock.size).sum ≤ MEMORY_POOL_SIZE ∧
    ∀ (i j : Nat) (bi bj : MemBlock), i ≠ j → s.mem_blocks[i]? = some bi → s.mem_blocks[j]? = some bj →
      ∀ x, ¬ ((bi.addr ≤ x ∧ x < bi.addr + bi.size) ∧ (bj.addr ≤ x ∧ x < bj.addr + bj.size)) := by
  have hinv := reachable_inv s h
  refine ⟨le_of_eq hinv.sum_size, ?_⟩
  intro i j bi bj hij hi hj x hx
  have h2 := total_two_le (covers x) _ i j bi bj hij hi hj
  have h1 := hinv.disjoint x
  simp only [covers, hx.1, hx.2, and_self, if_true] at h2
  omega

theorem sample_alloc_reachable : Reachable sample_alloc :=
  .free _ _ (.malloc _ _ (by decide) (.malloc _ _ (by decide) .init))

theorem allocator_invariant_witness :
    (sample_alloc.mem_blocks.map MemBlock.size).sum ≤ MEMORY_POOL_SIZE ∧
    ∀ (i j : Nat) (bi bj : MemBlock), i ≠ j → sample_alloc.mem_blocks[i]? = some bi →
      sample_alloc.mem_blocks[j]? = some bj →
      ∀ x, ¬ ((bi.addr ≤ x ∧ x < bi.addr + bi.size) ∧ (bj.addr ≤ x ∧ x < bj.addr + bj.size)) :=
  allocator_invariant sample_alloc sample_alloc_reachable

/-- First fit for requests whose round-up does not wrap (`size + 3 < SIZE_MOD`):
`kmalloc` returns `NULL` exactly when the size is 0 or no free block has room for the
size rounded up to a multiple of 4; a `NULL` call changes nothing; otherwise the result is
the address of the first such block in table order, and that block is in use afterwards. -/
theorem kmalloc_first_fit_in_range (s : Allocator) (size : Nat) (hs : size + 3 < SIZE_MOD) :
    ((kmalloc s size).1 = none ↔
      (size = 0 ∨ ∀ b ∈ s.mem_blocks, ¬ (b.used = false ∧ spec_round_up4 size ≤ b.size))) ∧
    ((kmalloc s size).1 = none → (kmalloc s size).2 = s) ∧
    (∀ p, (kmalloc s size).1 = some p →
      ∃ (i : Nat) (b b' : MemBlock), s.mem_blocks[i]? = some b ∧ b.used = false ∧
        spec_round_up4 size ≤ b.size ∧
        (∀ (j : Nat) (c : MemBlock), j < i → s.mem_blocks[j]? = some c →
          ¬ (c.used = false ∧ spec_round_up4 size ≤ c.size)) ∧
        p = b.addr ∧ (kmalloc s size).2.mem_blocks[i]? = some b' ∧
        b'.addr = p ∧ b'.used = true) := by
  have hr : align4 size = spec_round_up4 size := align4_of_le size hs
  rcases kmalloc_spec s size with ⟨h1, h2, h3⟩ | ⟨h0, i, b, hm, hp, hcase⟩
  · refine ⟨?_, fun _ => h2, ?_⟩
    · simp only [h1, true_iff]
      rcases h3 with h3 | h3
      · exact Or.inl h3
      · right
        intro b hb hfit
        have := h3 b hb
        rw [hr] at this
        rw [(fits_iff _ _).mpr hfit] at this
        exact absurd this (by simp)
    · intro p hp
      rw [h1] at hp
      exact absurd hp (by simp)
  · obtain ⟨hfit, hget, hfirst⟩ := first_match_some _ _ _ _ hm
    rw [hr] at hfit hfirst
    have hfit2 := (fits_iff _ _).mp hfit
    have hlen : i < s.mem_blocks.length := (first_match_mem _ _ _ _ hm).2
    refine ⟨?_, ?_, ?_⟩
    · rw [hp]
      constructor
      · intro hn
        exact absurd hn (by simp)
      · rintro (h | hall)
        · exact absurd h h0
        · exact absurd hfit2 (hall b (first_match_mem _ _ _ _ hm).1)
    · intro hn
      rw [hp] at hn
      exact absurd hn (by simp)
    · intro p hp2
      rw [hp] at hp2
      have hpb : b.addr = p := Option.some.inj hp2
      have hfirst2 : ∀ j c, j < i → s.mem_blocks[j]? = some c →
          ¬ (c.used = false ∧ spec_round_up4 size ≤ c.size) := by
        intro j c hj hc hfit3
        have := hfirst j c hj hc
        rw [(fits_iff _ _).mpr hfit3] at this
        exact absurd this (by simp)
      rcases hcase with ⟨_, _, hst⟩ | ⟨_, hst⟩
      · refine ⟨i, b, { addr := b.addr, size := align4 size, used := true },
          hget, hfit2.1, hfit2.2, hfirst2, hpb.symm, ?_, hpb, rfl⟩
        rw [hst]
        simp only
        rw [List.getElem?_append_left (by simpa using hlen)]
        simp [hlen]
      · refine ⟨i, b, { addr := b.addr, size := b.size, used := true },
          hget, hfit2.1, hfit2.2, hfirst2, hpb.symm, ?_, hpb, rfl⟩
        rw [hst]
        simp [hlen]

/-- C2 (failing input): on the state of `memory_init` the request `SIZE_MAX = 4294967295`
is not 0 and no free block has room for it rounded up to a multiple of 4, yet `kmalloc`
returns the pool base rather than `NULL`: the sum `size + 3` wraps to 2, the rounded request
is 0, and the first block is handed out with length 0. -/
theorem kmalloc_size_max_not_null :
    (4294967295 ≠ 0 ∧ 4294967295 < SIZE_MOD ∧
      ∀ b ∈ memory_init.mem_blocks, ¬ (b.used = false ∧ spec_round_up4 4294967295 ≤ b.size)) ∧
    kmalloc memory_init 4294967295 =
      (some 0, { mem_blocks := [⟨0, 0, true⟩, ⟨0, 32768, false⟩], total_allocated := 0 }) := by
  refine ⟨⟨by decide, by decide, ?_⟩, by decide⟩
  intro b hb
  simp only [memory_init, List.mem_singleton] at hb
  subst hb
  decide

/-- The split rule for requests that wrap neither in the round-up nor in `size + 16`
(`size + 19 < SIZE_MOD`): with `r` the size rounded up to a multiple of 4 and `L` the length
of the selected block, the block is cut to `r` and the remainder appended as a free block
when `L > r + 16` and fewer than 64 descriptors exist; otherwise the block is used whole.
All other descriptors stay as they are. -/
theorem kmalloc_split_rule_in_range (s : Allocator) (size : Nat) (hs : size + 19 < SIZE_MOD)
    (p : Nat) (hp : (kmalloc s size).1 = some p) :
    ∃ (i : Nat) (b : MemBlock),
      first_match (fits (spec_round_up4 size)) s.mem_blocks = some (i, b) ∧ p = b.addr ∧
      ((spec_round_up4 size + 16 < b.size ∧ s.mem_blocks.length < MAX_BLOCKS) →
        (kmalloc s size).2.mem_blocks =
          s.mem_blocks.set i ⟨b.addr, spec_round_up4 size, true⟩ ++
            [⟨b.addr + spec_round_up4 size, b.size - spec_round_up4 size, false⟩]) ∧
      (¬ (spec_round_up4 size + 16 < b.size ∧ s.mem_blocks.length < MAX_BLOCKS) →
        (kmalloc s size).2.mem_blocks = s.mem_blocks.set i ⟨b.addr, b.size, true⟩) := by
  have hr : align4 size = spec_round_up4 size := align4_of_le size (by omega)
  have hr16 : (align4 size + 16) % SIZE_MOD = spec_round_up4 size + 16 := by
    rw [hr]
    apply Nat.mod_eq_of_lt
    unfold spec_round_up4
    omega
  rcases kmalloc_spec s size with ⟨h1, _, _⟩ | ⟨_, i, b, hm, hp2, hcase⟩
  · rw [h1] at hp
    exact absurd hp (by simp)
  · rw [hp2] at hp
    rw [hr16] at hcase
    rw [hr] at hm hcase
    refine ⟨i, b, hm, (Option.some.inj hp).symm, ?_, ?_⟩
    · intro hc
      rcases hcase with ⟨_, _, hst⟩ | ⟨hn, _⟩
      · rw [hst]
      · exact absurd hc hn
    · intro hc
      rcases hcase with ⟨h1, h2, _⟩ | ⟨_, hst⟩
      · exact absurd ⟨h1, h2⟩ hc
      · rw [hst]

/-- C9 (failing input): in the reachable state `sample_alloc` the request 4294967293
succeeds and selects block 0, of length `L = 100`.  The size rounded up to a multiple of
4 is `r = 4294967296`, so `L ≤ r + 16` and the block should be used whole with the
descriptor count unchanged; the code, whose round-up wraps to 0, cuts block 0 to length 0
and appends a fourth descriptor. -/
theorem kmalloc_split_on_wrapped_size :
    Reachable sample_alloc ∧
    sample_alloc.mem_blocks = [⟨0, 100, false⟩, ⟨100, 40, true⟩, ⟨140, 32628, false⟩] ∧
    spec_round_up4 4294967293 = 4294967296 ∧
    kmalloc sample_alloc 4294967293 =
      (some 0,
        { mem_blocks := [⟨0, 0, true⟩, ⟨100, 40, true⟩, ⟨140, 32628, false⟩, ⟨0, 100, false⟩],
          total_allocated := 40 }) :=
  ⟨sample_alloc_reachable, by decide, by decide, by decide⟩

/-- The frame of `kfree`: for every allocator state and every pointer, `kfree` keeps the
number of descriptors and the address and length of each one; it either changes nothing
or clears the `used` flag of one used block whose address is the pointer (subtracting its
length from the counter); and when the pointer is `NULL` or is not the address of any
used block the whole state, counter included, is unchanged.  No blocks are merged: after
the pool is carved into two blocks of 16384 bytes and both are released, the table still
holds these two blocks and `kmalloc(32768)` returns `NULL`. -/
theorem kfree_frame (s : Allocator) (ptr : Option Nat) :
    (kfree s ptr).mem_blocks.length = s.mem_blocks.length ∧
    (kfree s ptr).mem_blocks.map (fun b => (b.addr, b.size)) =
      s.mem_blocks.map (fun b => (b.addr, b.size)) ∧
    (kfree s ptr = s ∨
      ∃ (i : Nat) (b : MemBlock), s.mem_blocks[i]? = some b ∧ some b.addr = ptr ∧
        b.used = true ∧
        kfree s ptr =
          { mem_blocks := s.mem_blocks.set i { addr := b.addr, size := b.size, used := false },
            total_allocated := (s.total_allocated + SIZE_MOD - b.size) % SIZE_MOD }) ∧
    ((ptr = none ∨ ∀ b ∈ s.mem_blocks, b.used = true → some b.addr ≠ ptr) → kfree s ptr = s) ∧
    (two_halves_released.mem_blocks = [⟨0, 16384, false⟩, ⟨16384, 16384, false⟩] ∧
      (kmalloc two_halves_released 32768).1 = none) := by
  rcases kfree_spec s ptr with ⟨h1, h2⟩ | ⟨i, b, hm, hst⟩
  · refine ⟨by rw [h1], by rw [h1], Or.inl h1, fun _ => h1, by decide, by decide⟩
  · obtain ⟨hp, hget, -⟩ := first_match_some _ _ _ _ hm
    simp only [Bool.and_eq_true, decide_eq_true_eq] at hp
    refine ⟨?_, ?_, Or.inr ⟨i, b, hget, hp.1, hp.2, hst⟩, ?_, by decide, by decide⟩
    · rw [hst]
      simp
    · rw [hst]
      exact map_set_eq _ _ _ _ _ hget rfl
    · rintro (hn | hall)
      · rw [hn] at hp
        exact absurd hp.1 (by simp)
      · exact absurd hp.1 (hall b (List.getElem?_mem hget) hp.2)

/-- C10 (failing input): in the reachable state left by `kmalloc(4294967295)` the pool
base is the address of block 1, which is free, so the claim requires `kfree` of the pool
base to leave the whole state unchanged.  The pool base is also the address of the used
block 0, of length 0, which the wrapped round-up of `kmalloc` made; `kfree` clears its
`used` flag, so the state changes. -/
theorem kfree_base_of_free_block_changes_state :
    Reachable (kmalloc memory_init 4294967295).2 ∧
    (kmalloc memory_init 4294967295).2.mem_blocks = [⟨0, 0, true⟩, ⟨0, 32768, false⟩] ∧
    (∃ b ∈ (kmalloc memory_init 4294967295).2.mem_blocks, some b.addr = some 0 ∧
      b.used = false) ∧
    (kfree (kmalloc memory_init 4294967295).2 (some 0)).mem_blocks =
      [⟨0, 0, false⟩, ⟨0, 32768, false⟩] ∧
    kfree (kmalloc memory_init 4294967295).2 (some 0) ≠ (kmalloc memory_init 4294967295).2 :=
  ⟨.malloc _ _ (by decide) .init, by decide, by decide, by decide, by decide⟩

/-! ## Claims about the object store -/

/-- C3: in every reachable store state, for a name of at most 31 characters and a NUL-free
content, if `fs_create` returns 0 then `fs_read` of the same name right afterwards finds a
slot whose `size` is the content length and whose buffer holds the content bytes (the
buffer lies inside the pool); and `fs_read` returns `NULL` exactly when no live slot has
that name. -/
theorem create_read_round_trip (s : Store) (hs : StoreReachable s) (name content : List Nat)
    (hname : 0 ∉ name ∧ name.length ≤ 31) (hcontent : 0 ∉ content) :
    ((fs_create s name content).1 = 0 →
      ∃ (f : File) (p : Nat), fs_read (fs_create s name content).2 name = some f ∧
        f.size = content.length ∧ f.content = some p ∧
        p + content.length < MEMORY_POOL_SIZE ∧
        f.bytes (fs_create s name content).2.memory_pool = content) ∧
    (fs_read s name = none ↔ ¬ ∃ f ∈ s.files, f.used = true ∧ f.name = name) := by
  have hinv := store_reachable_inv s hs
  have hcn : cstr name = name := cstr_of_nul_free name hname.1
  have hcc : cstr content = content := cstr_of_nul_free content hcontent
  have hlen : strlen content = content.length := by rw [strlen_eq, hcc]
  refine ⟨?_, ?_⟩
  · intro h0
    rcases fs_create_spec s name content with ⟨_, hst⟩ | ⟨hnone, hrest⟩
    · rw [hst] at h0; exact absurd h0 (by simp)
    · rcases hrest with ⟨_, hst⟩ | ⟨i, f0, hslot, hrest⟩
      · rw [hst] at h0; exact absurd h0 (by simp)
      · rcases hrest with ⟨_, hst⟩ | ⟨_, _, hst⟩ | ⟨hle, p, hk, hst⟩
        · rw [hst] at h0; exact absurd h0 (by simp)
        · rw [hst] at h0; exact absurd h0 (by simp)
        · obtain ⟨-, hget, -⟩ := first_match_some _ _ _ _ hslot
          have hM : MAX_FILE_SIZE + 20 < SIZE_MOD := by decide
          obtain ⟨-, -, -, -, -, ⟨b, hb, -, hba, hbs⟩⟩ :=
            kmalloc_store_step s.alloc (strlen content + 1) p (by omega) (by omega)
              hinv.pos hinv.in_pool hk
          have hbin := hinv.in_pool b hb
          rw [hst]
          refine ⟨⟨cstr name, some p, strlen content, true⟩, p, ?_, hlen, rfl, by omega, ?_⟩
          · unfold fs_read
            rw [first_match_set_hit (is_named name) s.files i f0 _
              ((first_match_none _ _).mp hnone) hget
              ((is_named_iff _ _).mpr ⟨rfl, cstr_idem name⟩)]
          · simp only [File.bytes]
            rw [strcpy_bytes, hcc]
  · rw [fs_read_none_iff s hinv name, hcn]

theorem create_read_round_trip_witness :
    (StoreReachable boot ∧ (0 ∉ [120] ∧ [120].length ≤ 31) ∧ 0 ∉ [104, 105]) ∧
    ((fs_create boot [120] [104, 105]).1 = 0 →
      ∃ (f : File) (p : Nat), fs_read (fs_create boot [120] [104, 105]).2 [120] = some f ∧
        f.size = [104, 105].length ∧ f.content = some p ∧
        p + [104, 105].length < MEMORY_POOL_SIZE ∧
        f.bytes (fs_create boot [120] [104, 105]).2.memory_pool = [104, 105]) ∧
    (fs_read boot [120] = none ↔ ¬ ∃ f ∈ boot.files, f.used = true ∧ f.name = [120]) :=
  ⟨⟨.boot, by decide, by decide⟩,
    create_read_round_trip boot .boot [120] [104, 105] (by decide) (by decide)⟩

/-- C4: in every state reachable from boot by `fs_create` and `fs_delete` calls with names
of at most 31 characters, two different live slots point at two different used blocks of
the allocator whose ranges do not meet, each with room for its content; and for a live
object `x`, an `fs_create` or `fs_delete` on a different name, whatever its result, leaves
the slot found by `fs_read(x)` (hence its length) and the bytes of its buffer unchanged. -/
theorem content_immutable (s : Store) (hs : StoreReachable s) :
    (∀ (i j : Nat) (f g : File), i ≠ j → s.files[i]? = some f → s.files[j]? = some g →
      f.used = true → g.used = true →
      ∃ (k m : Nat) (b c : MemBlock), k ≠ m ∧ s.alloc.mem_blocks[k]? = some b ∧
        s.alloc.mem_blocks[m]? = some c ∧ b.used = true ∧ c.used = true ∧
        f.content = some b.addr ∧ g.content = some c.addr ∧
        f.size + 1 ≤ b.size ∧ g.size + 1 ≤ c.size ∧
        (b.addr + b.size ≤ c.addr ∨ c.addr + c.size ≤ b.addr)) ∧
    (∀ (x y content : List Nat) (f : File), strlen y < MAX_FILENAME → cstr y ≠ cstr x →
      fs_read s x = some f →
      fs_read (fs_create s y content).2 x = some f ∧
        f.bytes (fs_create s y content).2.memory_pool = f.bytes s.memory_pool) ∧
    (∀ (x y : List Nat) (f : File), cstr y ≠ cstr x → fs_read s x = some f →
      fs_read (fs_delete s y).2 x = some f ∧
        f.bytes (fs_delete s y).2.memory_pool = f.bytes s.memory_pool) := by
  have h := store_reachable_inv s hs
  refine ⟨?_, ?_, ?_⟩
  · intro i j f g hij hf hg hfu hgu
    obtain ⟨b, hb, hbu, hbc, hbs⟩ := h.room f (List.getElem?_mem hf) hfu
    obtain ⟨c, hc, hcu, hcc, hcs⟩ := h.room g (List.getElem?_mem hg) hgu
    obtain ⟨k, hk⟩ := List.getElem?_of_mem hb
    obtain ⟨m, hm⟩ := List.getElem?_of_mem hc
    have hne := content_ne_of_ne s h i j f g (fun e => hij e.symm) hf hg hfu hgu b.addr hbc
    have hkm : k ≠ m := by
      rintro rfl
      rw [hk] at hm
      have e : b = c := Option.some.inj hm
      rw [hcc, e] at hne
      exact hne rfl
    exact ⟨k, m, b, c, hkm, hk, hm, hbu, hcu, hbc, hcc, hbs, hcs,
      blocks_apart _ h.alloc.disjoint k m b c hkm hk hm (h.pos b hb) (h.pos c hc)⟩
  · intro x y content f _ hyx hread
    unfold fs_read at hread ⊢
    cases hm : first_match (is_named x) s.files with
    | none => rw [hm] at hread; exact absurd hread (by simp)
    | some r =>
      obtain ⟨i0, f0⟩ := r
      rw [hm] at hread
      have hff : f0 = f := Option.some.inj hread
      subst hff
      obtain ⟨hnamed, hgetf, -⟩ := first_match_some _ _ _ _ hm
      obtain ⟨hfu, -⟩ := (is_named_iff _ _).mp hnamed
      rcases fs_create_spec s y content with ⟨_, hst⟩ | ⟨-, hrest⟩
      · rw [hst]; exact ⟨by rw [hm], rfl⟩
      · rcases hrest with ⟨_, hst⟩ | ⟨i, g, hslot, hrest⟩
        · rw [hst]; exact ⟨by rw [hm], rfl⟩
        · obtain ⟨hgu, hget, -⟩ := first_match_some _ _ _ _ hslot
          simp only [Bool.not_eq_true'] at hgu
          have hg : is_named x g = false := by simp [is_named, hgu]
          rcases hrest with ⟨_, hst⟩ | ⟨_, _, hst⟩ | ⟨hle, p, hk, hst⟩
          · rw [hst]; exact ⟨by rw [hm], rfl⟩
          · rw [hst]
            refine ⟨?_, rfl⟩
            dsimp only
            rw [first_match_set_miss (is_named x) s.files i g _ hget hg
              (by simp [is_named, hgu]), hm]
          · rw [hst]
            refine ⟨?_, create_preserves_bytes s h content p hle hk f0
              (List.getElem?_mem hgetf) hfu⟩
            dsimp only
            have hv : is_named x ⟨cstr y, some p, strlen content, true⟩ = false := by
              rw [Bool.eq_false_iff]
              intro hn
              have := ((is_named_iff _ _).mp hn).2
              rw [cstr_idem] at this
              exact hyx this
            rw [first_match_set_miss (is_named x) s.files i g _ hget hg hv, hm]
  · intro x y f hyx hread
    rcases fs_delete_spec s y with ⟨_, hst⟩ | ⟨i, g, hslot, hst⟩
    · rw [hst]; exact ⟨hread, rfl⟩
    · obtain ⟨hgn, hget, -⟩ := first_match_some _ _ _ _ hslot
      obtain ⟨-, hgy⟩ := (is_named_iff _ _).mp hgn
      have hg : is_named x g = false := by
        rw [Bool.eq_false_iff]
        intro hn
        have := ((is_named_iff _ _).mp hn).2
        rw [hgy] at this
        exact hyx this
      rw [hst]
      refine ⟨?_, rfl⟩
      unfold fs_read at hread ⊢
      dsimp only
      rw [first_match_set_miss (is_named x) s.files i g _ hget hg (by simp [is_named])]
      exact hread

theorem store_a_b_reachable : StoreReachable store_a_b :=
  .create _ _ _ (by decide) (.create _ _ _ (by decide) .boot)

theorem content_immutable_witness :
    StoreReachable store_a_b ∧
    (fs_read (fs_create store_a_b [99] [49, 50, 51]).2 [97] = some ⟨[97], some 0, 3, true⟩ ∧
      File.bytes (fs_create store_a_b [99] [49, 50, 51]).2.memory_pool ⟨[97], some 0, 3, true⟩ =
        File.bytes store_a_b.memory_pool ⟨[97], some 0, 3, true⟩) ∧
    (fs_read (fs_delete store_a_b [98]).2 [97] = some ⟨[97], some 0, 3, true⟩ ∧
      File.bytes (fs_delete store_a_b [98]).2.memory_pool ⟨[97], some 0, 3, true⟩ =
        File.bytes store_a_b.memory_pool ⟨[97], some 0, 3, true⟩) :=
  ⟨store_a_b_reachable,
    (content_immutable store_a_b store_a_b_reachable).2.1 [97] [99] [49, 50, 51]
      ⟨[97], some 0, 3, true⟩ (by decide) (by decide) (by decide),
    (content_immutable store_a_b store_a_b_reachable).2.2 [97] [98]
      ⟨[97], some 0, 3, true⟩ (by decide) (by decide)⟩

/-- C5: in every store state in which a live slot holds the name `x`, `fs_create(x, c)`
returns -1 for every content `c` and the whole state (object table, descriptor table,
`total_allocated`, pool bytes) is unchanged, so `fs_read(x)` finds the same slot with the
same bytes as before. -/
theorem duplicate_create_rejected (s : Store) (x c : List Nat)
    (hlive : ∃ f ∈ s.files, f.used = true ∧ cstr f.name = cstr x) :
    fs_create s x c = (-1, s) ∧
    (fs_create s x c).2.files = s.files ∧
    (fs_create s x c).2.alloc.mem_blocks = s.alloc.mem_blocks ∧
    (fs_create s x c).2.alloc.total_allocated = s.alloc.total_allocated ∧
    fs_read (fs_create s x c).2 x = fs_read s x ∧
    ∀ f : File, f.bytes (fs_create s x c).2.memory_pool = f.bytes s.memory_pool := by
  have hst : fs_create s x c = (-1, s) := by
    rcases fs_create_spec s x c with ⟨_, hst⟩ | ⟨hnone, _⟩
    · exact hst
    · obtain ⟨f, hf, hu, hn⟩ := hlive
      have := (first_match_none _ _).mp hnone f hf
      rw [(is_named_iff _ _).mpr ⟨hu, hn⟩] at this
      exact absurd this (by simp)
  rw [hst]
  exact ⟨rfl, rfl, rfl, rfl, rfl, fun _ => rfl⟩

theorem duplicate_create_rejected_witness :
    (∃ f ∈ store_x_hi.files, f.used = true ∧ cstr f.name = cstr [120]) ∧
    (fs_create store_x_hi [120] [98, 121, 101] = (-1, store_x_hi) ∧
      (fs_create store_x_hi [120] [98, 121, 101]).2.files = store_x_hi.files ∧
      (fs_create store_x_hi [120] [98, 121, 101]).2.alloc.mem_blocks =
        store_x_hi.alloc.mem_blocks ∧
      (fs_create store_x_hi [120] [98, 121, 101]).2.alloc.total_allocated =
        store_x_hi.alloc.total_allocated ∧
      fs_read (fs_create store_x_hi [120] [98, 121, 101]).2 [120] = fs_read store_x_hi [120] ∧
      ∀ f : File, f.bytes (fs_create store_x_hi [120] [98, 121, 101]).2.memory_pool =
        f.bytes store_x_hi.memory_pool) ∧
    (fs_read store_x_hi [120]).map (fun f => f.bytes store_x_hi.memory_pool) =
      some [104, 105] :=
  ⟨by decide, duplicate_create_rejected store_x_hi [120] [98, 121, 101] (by decide), by decide⟩

theorem churn_reachable (n k : Nat) (s : Store) (h : StoreReachable s) :
    StoreReachable (churn s n k) := by
  induction n generalizing s k with
  | zero => exact h
  | succ n ih =>
    exact ih (k + 1) _ (.delete _ _ (.create _ _ _ (by decide) h))

theorem fragmented_store_reachable : StoreReachable fragmented_store :=
  .create _ _ _ (by decide)
    (churn_reachable 61 3 _
      (.delete _ _ (.delete _ _
        (.create _ _ _ (by decide) (.create _ _ _ (by decide) .boot)))))

/-- C6 (as amended): for every store state, when `fs_create` returns a failure the
allocator state and the pool bytes are unchanged, every slot keeps its name, size and
live flag, and every live slot keeps its content pointer; the object table is either
unchanged or, when the failure is -3 (out of memory), differs only in the content
pointer of the first free slot, which is `NULL` afterwards. -/
theorem create_failure_frame (s : Store) (name content : List Nat)
    (hfail : (fs_create s name content).1 ≠ 0) :
    (fs_create s name content).2.alloc = s.alloc ∧
    (fs_create s name content).2.memory_pool = s.memory_pool ∧
    (fs_create s name content).2.files.map (fun f => (f.name, f.size, f.used)) =
      s.files.map (fun f => (f.name, f.size, f.used)) ∧
    (∀ (k : Nat) (g : File), s.files[k]? = some g → g.used = true →
      (fs_create s name content).2.files[k]? = some g) ∧
    ((fs_create s name content).2.files = s.files ∨
      ((fs_create s name content).1 = -3 ∧
        ∃ (i : Nat) (f : File), first_match (fun f => !f.used) s.files = some (i, f) ∧
          (fs_create s name content).2.files = s.files.set i { f with content := none })) := by
  rcases fs_create_spec s name content with ⟨_, hst⟩ | ⟨-, hrest⟩
  · rw [hst]; exact ⟨rfl, rfl, rfl, fun _ _ hk _ => hk, Or.inl rfl⟩
  · rcases hrest with ⟨_, hst⟩ | ⟨i, f, hslot, hrest⟩
    · rw [hst]; exact ⟨rfl, rfl, rfl, fun _ _ hk _ => hk, Or.inl rfl⟩
    · rcases hrest with ⟨_, hst⟩ | ⟨_, _, hst⟩ | ⟨_, p, _, hst⟩
      · rw [hst]; exact ⟨rfl, rfl, rfl, fun _ _ hk _ => hk, Or.inl rfl⟩
      · obtain ⟨hfu, hget, -⟩ := first_match_some _ _ _ _ hslot
        simp only [Bool.not_eq_true'] at hfu
        rw [hst]
        refine ⟨rfl, rfl, map_set_eq _ _ _ _ _ hget rfl, ?_, Or.inr ⟨rfl, i, f, hslot, rfl⟩⟩
        intro k g hk hgu
        have hki : i ≠ k := by
          rintro rfl
          rw [hget] at hk
          rw [Option.some.inj hk] at hfu
          rw [hfu] at hgu
          exact absurd hgu (by simp)
        dsimp only
        rw [List.getElem?_set_ne hki]
        exact hk
      · rw [hst] at hfail
        exact absurd rfl hfail

set_option maxRecDepth 100000 in
theorem create_failure_frame_witness :
    (fs_create fragmented_store [121] (List.replicate 1000 97)).1 ≠ 0 ∧
    ((fs_create fragmented_store [121] (List.replicate 1000 97)).2.alloc =
        fragmented_store.alloc ∧
      (fs_create fragmented_store [121] (List.replicate 1000 97)).2.memory_pool =
        fragmented_store.memory_pool ∧
      (fs_create fragmented_store [121] (List.replicate 1000 97)).2.files.map
          (fun f => (f.name, f.size, f.used)) =
        fragmented_store.files.map (fun f => (f.name, f.size, f.used)) ∧
      (∀ (k : Nat) (g : File), fragmented_store.files[k]? = some g → g.used = true →
        (fs_create fragmented_store [121] (List.replicate 1000 97)).2.files[k]? = some g) ∧
      ((fs_create fragmented_store [121] (List.replicate 1000 97)).2.files =
          fragmented_store.files ∨
        ((fs_create fragmented_store [121] (List.replicate 1000 97)).1 = -3 ∧
          ∃ (i : Nat) (f : File),
            first_match (fun f => !f.used) fragmented_store.files = some (i, f) ∧
            (fs_create fragmented_store [121] (List.replicate 1000 97)).2.files =
              fragmented_store.files.set i { f with content := none }))) :=
  ⟨by decide, create_failure_frame fragmented_store [121] (List.replicate 1000 97) (by decide)⟩

set_option maxRecDepth 100000 in
/-- C6 (counterexample): `fragmented_store` is reachable; slot 1 is free and still holds
the pointer `memory_pool + 4` of a deleted object.  `fs_create("y", 1000 bytes)` fails
with -3 and leaves `NULL` in the content pointer of slot 1: the object table is mutated
by a failing call. -/
theorem create_oom_overwrites_free_slot_pointer :
    StoreReachable fragmented_store ∧
    (fs_create fragmented_store [121] (List.replicate 1000 97)).1 = -3 ∧
    fragmented_store.files[1]? = some ⟨[98], some 4, 7, false⟩ ∧
    (fs_create fragmented_store [121] (List.replicate 1000 97)).2.files[1]? =
      some ⟨[98], none, 7, false⟩ :=
  ⟨fragmented_store_reachable, by decide, by decide, by decide⟩

theorem fill_reachable (n : Nat) (s : Store) (h : StoreReachable s) :
    StoreReachable (fill s n) := by
  induction n with
  | zero => exact h
  | succ n ih => exact .create _ _ _ (by simp [strlen, MAX_FILENAME]) ih

/-- C7 (as amended): for every store state, every name that no live slot holds and every
content longer than `MAX_FILE_SIZE`, `fs_create` returns -2 (too large) when some slot is
free, and -4 (no free slot) when all slots are live: the length is checked after a free
slot has been found.  The state is unchanged in both cases. -/
theorem create_too_large (s : Store) (name content : List Nat)
    (hnot : ¬ ∃ f ∈ s.files, f.used = true ∧ cstr f.name = cstr name)
    (hlen : MAX_FILE_SIZE < strlen content) :
    ((∃ f ∈ s.files, f.used = false) → fs_create s name content = (-2, s)) ∧
    ((∀ f ∈ s.files, f.used = true) → fs_create s name content = (-4, s)) := by
  rcases fs_create_spec s name content with ⟨⟨r, hr⟩, _⟩ | ⟨-, hrest⟩
  · obtain ⟨i, f⟩ := r
    obtain ⟨hp, hget, -⟩ := first_match_some _ _ _ _ hr
    obtain ⟨hu, hn⟩ := (is_named_iff _ _).mp hp
    exact absurd ⟨f, List.getElem?_mem hget, hu, hn⟩ hnot
  · rcases hrest with ⟨hfull, hst⟩ | ⟨i, f, hslot, hrest⟩
    · refine ⟨?_, fun _ => hst⟩
      rintro ⟨f, hf, hu⟩
      have := (first_match_none _ _).mp hfull f hf
      simp only [hu, Bool.not_false] at this
      exact absurd this (by simp)
    · obtain ⟨hfu, hget, -⟩ := first_match_some _ _ _ _ hslot
      simp only [Bool.not_eq_true'] at hfu
      have hst : fs_create s name content = (-2, s) := by
        rcases hrest with ⟨_, hst⟩ | ⟨hle, _, _⟩ | ⟨hle, _, _, _⟩
        · exact hst
        · omega
        · omega
      refine ⟨fun _ => hst, ?_⟩
      intro hall
      have := hall f (List.getElem?_mem hget)
      rw [hfu] at this
      exact absurd this (by simp)

set_option maxRecDepth 100000 in
theorem create_too_large_witness :
    ((¬ ∃ f ∈ store_x_hi.files, f.used = true ∧ cstr f.name = cstr [121]) ∧
      MAX_FILE_SIZE < strlen (List.replicate 1025 97)) ∧
    (((∃ f ∈ store_x_hi.files, f.used = false) →
        fs_create store_x_hi [121] (List.replicate 1025 97) = (-2, store_x_hi)) ∧
      ((∀ f ∈ store_x_hi.files, f.used = true) →
        fs_create store_x_hi [121] (List.replicate 1025 97) = (-4, store_x_hi))) :=
  ⟨⟨by decide, by decide⟩,
    create_too_large store_x_hi [121] (List.replicate 1025 97) (by decide) (by decide)⟩

set_option maxRecDepth 100000 in
/-- C7 (counterexample): `full_store` is reachable and all its 16 slots are live; the name
"z" is not live and the content has 1025 bytes, more than `MAX_FILE_SIZE`; `fs_create`
returns -4 (no free slot), not -2 (too large). -/
theorem create_too_large_full_table :
    StoreReachable full_store ∧
    full_store.files.length = MAX_FILES ∧
    (∀ f ∈ full_store.files, f.used = true) ∧
    (¬ ∃ f ∈ full_store.files, f.used = true ∧ cstr f.name = cstr [122]) ∧
    MAX_FILE_SIZE < strlen (List.replicate 1025 97) ∧
    (fs_create full_store [122] (List.replicate 1025 97)).1 = -4 :=
  ⟨fill_reachable 16 boot .boot, by decide, by decide, by decide, by decide, by decide⟩

theorem named_none_iff (s : Store) (h : StoreInv s) (name : List Nat) :
    first_match (is_named name) s.files = none ↔
      ¬ ∃ f ∈ s.files, f.used = true ∧ f.name = cstr name := by
  have := fs_read_none_iff s h name
  unfold fs_read at this
  cases hm : first_match (is_named name) s.files with
  | none => rw [hm] at this; simpa using this
  | some r =>
    rw [hm] at this
    constructor
    · intro hn
      exact absurd hn (by simp)
    · intro hne
      exact absurd (this.mpr hne) (by simp)

/-- C8: in every reachable store state and for every name, `fs_delete` returns 0 exactly
when a live slot holds the name.  When it returns 0, that slot is marked free and nothing
else in the object table changes; the one block whose address is the content pointer of
the object, a used block, becomes free and nothing else in the descriptor table changes;
`total_allocated` decreases by the stored length of that block; the pool bytes are
untouched; and `fs_read` of the name returns `NULL` afterwards.  When it does not
return 0 it returns -1 and the whole state is unchanged. -/
theorem delete_contract (s : Store) (hs : StoreReachable s) (name : List Nat) :
    ((fs_delete s name).1 = 0 ↔ ∃ f ∈ s.files, f.used = true ∧ f.name = cstr name) ∧
    ((fs_delete s name).1 = 0 →
      ∃ (i j p : Nat) (f : File) (b : MemBlock),
        s.files[i]? = some f ∧ f.used = true ∧ f.name = cstr name ∧ f.content = some p ∧
        s.alloc.mem_blocks[j]? = some b ∧ b.addr = p ∧ b.used = true ∧
        (∀ (j' : Nat) (b' : MemBlock),
          s.alloc.mem_blocks[j']? = some b' → b'.addr = p → j' = j) ∧
        (fs_delete s name).2.files = s.files.set i { f with used := false } ∧
        (fs_delete s name).2.alloc.mem_blocks =
          s.alloc.mem_blocks.set j { b with used := false } ∧
        (fs_delete s name).2.alloc.total_allocated + b.size = s.alloc.total_allocated ∧
        (fs_delete s name).2.memory_pool = s.memory_pool ∧
        fs_read (fs_delete s name).2 name = none) ∧
    ((fs_delete s name).1 ≠ 0 → fs_delete s name = (-1, s)) := by
  have h := store_reachable_inv s hs
  rcases fs_delete_spec s name with ⟨hnone, hst⟩ | ⟨i, f, hm, hst⟩
  · rw [hst]
    refine ⟨?_, ?_, fun _ => rfl⟩
    · constructor
      · intro h0
        exact absurd h0 (by simp)
      · intro hex
        exact absurd hex ((named_none_iff s h name).mp hnone)
    · intro h0
      exact absurd h0 (by simp)
  · obtain ⟨hnamed, hget, -⟩ := first_match_some _ _ _ _ hm
    obtain ⟨hfu, hfn⟩ := (is_named_iff _ _).mp hnamed
    have hfmem := List.getElem?_mem hget
    have hfname : f.name = cstr name := by rw [← h.nul_free f hfmem hfu, hfn]
    obtain ⟨c, hc, hcu, hcc, -⟩ := h.room f hfmem hfu
    obtain ⟨j, b, hgetb, hbu, hba, hkf, -, -, -⟩ :=
      kfree_store_step s.alloc c.addr ⟨c, hc, hcu, rfl⟩
    have hbmem := List.getElem?_mem hgetb
    rw [hst]
    refine ⟨?_, ?_, fun hne => absurd rfl hne⟩
    · exact ⟨fun _ => ⟨f, hfmem, hfu, hfname⟩, fun _ => rfl⟩
    · intro _
      refine ⟨i, j, c.addr, f, b, hget, hfu, hfname, hcc, hgetb, hba, hbu, ?_, rfl, ?_, ?_,
        rfl, ?_⟩
      · intro j' b' hb' hba'
        by_contra hjj
        have := blocks_apart _ h.alloc.disjoint j' j b' b hjj hb' hgetb
          (h.pos b' (List.getElem?_mem hb')) (h.pos b hbmem)
        have := h.pos b hbmem
        have := h.pos b' (List.getElem?_mem hb')
        omega
      · dsimp only
        rw [hcc, hkf]
      · dsimp only
        rw [hcc, hkf]
        dsimp only
        have hcnt := h.alloc.counter
        have hsz := h.alloc.sum_size
        have huf := total_used_add_free s.alloc.mem_blocks
        have hub := total_ge used_size _ _ _ hgetb
        simp only [used_size, hbu, if_true] at hub
        have hM : MEMORY_POOL_SIZE < SIZE_MOD := by decide
        have e : s.alloc.total_allocated + SIZE_MOD - b.size =
            (s.alloc.total_allocated - b.size) + SIZE_MOD := by omega
        rw [e, Nat.add_mod_right, Nat.mod_eq_of_lt (by omega)]
        omega
      · unfold fs_read
        dsimp only
        have hnone : first_match (is_named name)
            (s.files.set i { f with used := false }) = none := by
          rw [first_match_none]
          intro g hg
          rw [Bool.eq_false_iff]
          intro hgn
          obtain ⟨hgu, hgname⟩ := (is_named_iff _ _).mp hgn
          rcases mem_set_cases _ _ _ _ hg with rfl | ⟨k, hki, hk⟩
          · exact absurd hgu (by simp)
          · have hgn2 : g.name = f.name := by
              rw [← h.nul_free g (List.getElem?_mem hk) hgu, hgname, hfname]
            have h2 := total_two_le (named f.name) _ k i g f hki hk hget
            have h1 := h.names f.name
            simp only [named, hgu, hfu, hgn2, and_self, if_true] at h2
            omega
        rw [hnone]

theorem delete_contract_witness :
    StoreReachable store_a_b ∧
    ((fs_delete store_a_b [97]).1 = 0 ↔
      ∃ f ∈ store_a_b.files, f.used = true ∧ f.name = cstr [97]) ∧
    ((fs_delete store_a_b [97]).1 = 0 →
      ∃ (i j p : Nat) (f : File) (b : MemBlock),
        store_a_b.files[i]? = some f ∧ f.used = true ∧ f.name = cstr [97] ∧
        f.content = some p ∧
        store_a_b.alloc.mem_blocks[j]? = some b ∧ b.addr = p ∧ b.used = true ∧
        (∀ (j' : Nat) (b' : MemBlock),
          store_a_b.alloc.mem_blocks[j']? = some b' → b'.addr = p → j' = j) ∧
        (fs_delete store_a_b [97]).2.files = store_a_b.files.set i { f with used := false } ∧
        (fs_delete store_a_b [97]).2.alloc.mem_blocks =
          store_a_b.alloc.mem_blocks.set j { b with used := false } ∧
        (fs_delete store_a_b [97]).2.alloc.total_allocated + b.size =
          store_a_b.alloc.total_allocated ∧
        (fs_delete store_a_b [97]).2.memory_pool = store_a_b.memory_pool ∧
        fs_read (fs_delete store_a_b [97]).2 [97] = none) ∧
    ((fs_delete store_a_b [97]).1 ≠ 0 → fs_delete store_a_b [97] = (-1, store_a_b)) :=
  ⟨store_a_b_reachable, delete_contract store_a_b store_a_b_reachable [97]⟩

/-! ## Release twice, usage -/

theorem kmalloc_pos (s : Allocator) (size : Nat) (hs : size + 3 < SIZE_MOD) (h : AllocInv s)
    (hpos : ∀ b ∈ s.mem_blocks, 0 < b.size) :
    ∀ b ∈ (kmalloc s size).2.mem_blocks, 0 < b.size := by
  have hr : align4 size = spec_round_up4 size := align4_of_le size hs
  rcases kmalloc_spec s size with ⟨_, h2, _⟩ | ⟨h0, i, b, hm, _, hcase⟩
  · rw [h2]; exact hpos
  · obtain ⟨hfit, hget, -⟩ := first_match_some _ _ _ _ hm
    obtain ⟨-, hle⟩ := (fits_iff _ _).mp hfit
    have hsz := h.sum_size
    have hb := total_ge MemBlock.size _ _ _ hget
    have hM : MEMORY_POOL_SIZE + 16 < SIZE_MOD := by decide
    have hrpos : 0 < spec_round_up4 size := by unfold spec_round_up4; omega
    rw [hr] at hcase hle
    rcases hcase with ⟨hgt, _, hst⟩ | ⟨_, hst⟩
    · rw [Nat.mod_eq_of_lt (by omega)] at hgt
      rw [hst]
      intro c hc
      rcases List.mem_append.mp hc with hc | hc
      · rcases mem_set_cases _ _ _ _ hc with rfl | ⟨k, _, hk⟩
        · exact hrpos
        · exact hpos c (List.getElem?_mem hk)
      · simp only [List.mem_singleton] at hc
        subst hc
        simp only; omega
    · rw [hst]
      intro c hc
      rcases mem_set_cases _ _ _ _ hc with rfl | ⟨k, _, hk⟩
      · exact hpos b (List.getElem?_mem hget)
      · exact hpos c (List.getElem?_mem hk)

theorem kfree_pos (s : Allocator) (ptr : Option Nat) (hpos : ∀ b ∈ s.mem_blocks, 0 < b.size) :
    ∀ b ∈ (kfree s ptr).mem_blocks, 0 < b.size := by
  rcases kfree_spec s ptr with ⟨h1, _⟩ | ⟨i, b, hm, hst⟩
  · rw [h1]; exact hpos
  · obtain ⟨-, hget, -⟩ := first_match_some _ _ _ _ hm
    rw [hst]
    intro c hc
    rcases mem_set_cases _ _ _ _ hc with rfl | ⟨k, _, hk⟩
    · exact hpos b (List.getElem?_mem hget)
    · exact hpos c (List.getElem?_mem hk)

theorem no_wrap_inv (s : Allocator) (h : ReachableNoWrap s) :
    AllocInv s ∧ ∀ b ∈ s.mem_blocks, 0 < b.size := by
  induction h with
  | init => exact ⟨memory_init_inv, by decide⟩
  | malloc s size hs _ ih => exact ⟨kmalloc_inv s size ih.1, kmalloc_pos s size hs ih.1 ih.2⟩
  | free s ptr _ ih => exact ⟨kfree_inv s ptr ih.1, kfree_pos s ptr ih.2⟩

theorem total_zero_mem {α : Type} (g : α → Nat) (l : List α) (h0 : total g l = 0) :
    ∀ x ∈ l, g x = 0 := by
  intro x hx
  obtain ⟨i, hi⟩ := List.getElem?_of_mem hx
  have := total_ge g l i x hi
  omega

/-- Idempotence of release where the round-up of `kmalloc` never wrapped: in every state
reachable by `kfree` calls and `kmalloc` calls with `size + 3 < SIZE_MOD`, `kfree(p)`
twice gives the state of `kfree(p)` once, and after one release no used block starts
at `p`. -/
theorem kfree_idempotent_no_wrap (s : Allocator) (h : ReachableNoWrap s) (ptr : Option Nat) :
    kfree (kfree s ptr) ptr = kfree s ptr ∧
    ∀ b ∈ (kfree s ptr).mem_blocks, b.used = true → some b.addr ≠ ptr := by
  obtain ⟨hinv, hpos⟩ := no_wrap_inv s h
  have key : ∀ b ∈ (kfree s ptr).mem_blocks, b.used = true → some b.addr ≠ ptr := by
    rcases kfree_spec s ptr with ⟨h1, h2⟩ | ⟨i, b, hm, _⟩
    · rw [h1]
      rcases h2 with h2 | h2
      · intro b _ _
        rw [h2]
        simp
      · exact h2
    · obtain ⟨hp, hget, -⟩ := first_match_some _ _ _ _ hm
      simp only [Bool.and_eq_true, decide_eq_true_eq] at hp
      obtain ⟨hbp, hbu⟩ := hp
      subst hbp
      obtain ⟨-, -, -, -, -, -, hcount, -, -⟩ :=
        kfree_store_step s b.addr ⟨b, List.getElem?_mem hget, hbu, rfl⟩
      have h1 := used_at_le_one s hinv.disjoint hpos b.addr
      have h2 := hcount b.addr
      simp only [if_true] at h2
      have h0 : total (used_at b.addr) (kfree s (some b.addr)).mem_blocks = 0 := by omega
      intro c hc hcu hca
      have := total_zero_mem _ _ h0 c hc
      simp only [used_at, hcu, true_and, Option.some.inj hca, if_true] at this
      exact absurd this (by simp)
  refine ⟨?_, key⟩
  rcases kfree_spec (kfree s ptr) ptr with ⟨h1, _⟩ | ⟨i, b, hm, _⟩
  · exact h1
  · obtain ⟨hp, hget, -⟩ := first_match_some _ _ _ _ hm
    simp only [Bool.and_eq_true, decide_eq_true_eq] at hp
    exact absurd hp.1 (key b (List.getElem?_mem hget) hp.2)

/-- Release is permissive wherever the round-up of `kmalloc` never wrapped: in every
state reachable by `kfree` calls and `kmalloc` calls with `size + 3 < SIZE_MOD`, when the
pointer is `NULL`, is the base of no block, or is the base of a block that is already
free, `kfree` leaves the whole state, `total_allocated` included, unchanged. -/
theorem kfree_permissive_no_wrap (s : Allocator) (h : ReachableNoWrap s) (ptr : Option Nat)
    (hp : ptr = none ∨ (∀ b ∈ s.mem_blocks, some b.addr ≠ ptr) ∨
      ∃ b ∈ s.mem_blocks, some b.addr = ptr ∧ b.used = false) :
    kfree s ptr = s := by
  obtain ⟨hinv, hpos⟩ := no_wrap_inv s h
  rcases kfree_spec s ptr with ⟨h1, _⟩ | ⟨i, c, hm, _⟩
  · exact h1
  · obtain ⟨hc, hget, -⟩ := first_match_some _ _ _ _ hm
    simp only [Bool.and_eq_true, decide_eq_true_eq] at hc
    obtain ⟨hca, hcu⟩ := hc
    have hcmem := List.getElem?_mem hget
    rcases hp with hp | hp | ⟨b, hb, hba, hbu⟩
    · rw [hp] at hca
      exact absurd hca (by simp)
    · exact absurd hca (hp c hcmem)
    · obtain ⟨jb, hjb⟩ := List.getElem?_of_mem hb
      have hne : i ≠ jb := by
        rintro rfl
        rw [hget] at hjb
        rw [Option.some.inj hjb, hbu] at hcu
        exact absurd hcu (by simp)
      have hsame : c.addr = b.addr := by
        rw [← hba] at hca
        exact Option.some.inj hca
      have := blocks_apart _ hinv.disjoint i jb c b hne hget hjb (hpos c hcmem) (hpos b hb)
      have := hpos c hcmem
      have := hpos b hb
      omega

/-- C11 (failing input): the state `double_base`, reached by `kmalloc(4294967295)` and
`kmalloc(4)`, has two used blocks at the pool base, of lengths 0 and 4.  One `kfree` of the
pool base frees the first only, so the pool base is still the base of a used block, and a
second `kfree` of it changes the state again. -/
theorem kfree_twice_differs_after_wrapped_malloc :
    Reachable double_base ∧
    double_base.mem_blocks = [⟨0, 0, true⟩, ⟨0, 4, true⟩, ⟨4, 32764, false⟩] ∧
    (kfree double_base (some 0)).mem_blocks =
      [⟨0, 0, false⟩, ⟨0, 4, true⟩, ⟨4, 32764, false⟩] ∧
    (∃ b ∈ (kfree double_base (some 0)).mem_blocks, b.used = true ∧ some b.addr = some 0) ∧
    kfree (kfree double_base (some 0)) (some 0) ≠ kfree double_base (some 0) :=
  ⟨.malloc _ _ (by decide) (.malloc _ _ (by decide) .init), by decide, by decide, by decide,
    by decide⟩

theorem total_used_eq_filter (l : List MemBlock) :
    total used_size l = ((l.filter (fun b => b.used)).map MemBlock.size).sum := by
  induction l with
  | nil => rfl
  | cons b l ih =>
    rw [total_cons, ih]
    cases hb : b.used <;> simp [used_size, hb]

theorem total_free_eq_filter (l : List MemBlock) :
    total free_size l = ((l.filter (fun b => !b.used)).map MemBlock.size).sum := by
  induction l with
  | nil => rfl
  | cons b l ih =>
    rw [total_cons, ih]
    cases hb : b.used <;> simp [free_size, hb]

/-- C12: in every state reachable from `memory_init` by `kmalloc` and `kfree` calls,
`total_allocated` is the sum of the stored lengths of the used blocks, the free bytes that
`cmd_meminfo` reports (`MEMORY_POOL_SIZE - total_allocated`) are the sum of the lengths of
the free blocks, and the block count it reports is the number of descriptors. -/
theorem usage_accounting (s : Allocator) (h : Reachable s) :
    (cmd_meminfo s).1 = s.total_allocated ∧
    s.total_allocated = ((s.mem_blocks.filter (fun b => b.used)).map MemBlock.size).sum ∧
    (cmd_meminfo s).2.1 = MEMORY_POOL_SIZE - s.total_allocated ∧
    (cmd_meminfo s).2.1 = ((s.mem_blocks.filter (fun b => !b.used)).map MemBlock.size).sum ∧
    (cmd_meminfo s).2.2 = s.mem_blocks.length := by
  have hinv := reachable_inv s h
  have huf := total_used_add_free s.mem_blocks
  have hsz := hinv.sum_size
  have hcnt := hinv.counter
  have hM : MEMORY_POOL_SIZE < SIZE_MOD := by decide
  have hfree : (cmd_meminfo s).2.1 = MEMORY_POOL_SIZE - s.total_allocated := by
    simp only [cmd_meminfo]
    have e : MEMORY_POOL_SIZE + SIZE_MOD - s.total_allocated =
        (MEMORY_POOL_SIZE - s.total_allocated) + SIZE_MOD := by omega
    rw [e, Nat.add_mod_right, Nat.mod_eq_of_lt (by omega)]
  refine ⟨rfl, ?_, hfree, ?_, rfl⟩
  · rw [hcnt, total_used_eq_filter]
  · rw [hfree, ← total_free_eq_filter]
    omega

theorem usage_accounting_witness :
    Reachable sample_alloc ∧
    ((cmd_meminfo sample_alloc).1 = sample_alloc.total_allocated ∧
      sample_alloc.total_allocated =
        ((sample_alloc.mem_blocks.filter (fun b => b.used)).map MemBlock.size).sum ∧
      (cmd_meminfo sample_alloc).2.1 = MEMORY_POOL_SIZE - sample_alloc.total_allocated ∧
      (cmd_meminfo sample_alloc).2.1 =
        ((sample_alloc.mem_blocks.filter (fun b => !b.used)).map MemBlock.size).sum ∧
      (cmd_meminfo sample_alloc).2.2 = sample_alloc.mem_blocks.length) ∧
    cmd_meminfo sample_alloc = (40, 32728, 3) :=
  ⟨sample_alloc_reachable, usage_accounting sample_alloc sample_alloc_reachable, by decide⟩

/-! ## Block lengths and live counts in the object store -/

theorem align4_dvd (size : Nat) : 4 ∣ align4 size := by
  rw [align4_eq]
  exact Nat.dvd_mul_left 4 _

theorem kmalloc_div4 (s : Allocator) (size : Nat) (h4 : ∀ b ∈ s.mem_blocks, 4 ∣ b.size) :
    ∀ b ∈ (kmalloc s size).2.mem_blocks, 4 ∣ b.size := by
  rcases kmalloc_spec s size with ⟨_, h2, _⟩ | ⟨h0, i, b, hm, _, hcase⟩
  · rw [h2]; exact h4
  · obtain ⟨hfit, hget, -⟩ := first_match_some _ _ _ _ hm
    have hb4 := h4 b (List.getElem?_mem hget)
    rcases hcase with ⟨_, _, hst⟩ | ⟨_, hst⟩
    · rw [hst]
      intro c hc
      rcases List.mem_append.mp hc with hc | hc
      · rcases mem_set_cases _ _ _ _ hc with rfl | ⟨k, _, hk⟩
        · exact align4_dvd size
        · exact h4 c (List.getElem?_mem hk)
      · simp only [List.mem_singleton] at hc
        subst hc
        exact Nat.dvd_sub' hb4 (align4_dvd size)
    · rw [hst]
      intro c hc
      rcases mem_set_cases _ _ _ _ hc with rfl | ⟨k, _, hk⟩
      · exact hb4
      · exact h4 c (List.getElem?_mem hk)

theorem kfree_div4 (s : Allocator) (ptr : Option Nat) (h4 : ∀ b ∈ s.mem_blocks, 4 ∣ b.size) :
    ∀ b ∈ (kfree s ptr).mem_blocks, 4 ∣ b.size := by
  rcases kfree_spec s ptr with ⟨h1, _⟩ | ⟨i, b, hm, hst⟩
  · rw [h1]; exact h4
  · obtain ⟨-, hget, -⟩ := first_match_some _ _ _ _ hm
    rw [hst]
    intro c hc
    rcases mem_set_cases _ _ _ _ hc with rfl | ⟨k, _, hk⟩
    · exact h4 b (List.getElem?_mem hget)
    · exact h4 c (List.getElem?_mem hk)

theorem kmalloc_live (s : Allocator) (size p : Nat) (hp : (kmalloc s size).1 = some p) :
    total block_live (kmalloc s size).2.mem_blocks = total block_live s.mem_blocks + 1 := by
  rcases kmalloc_spec s size with ⟨h1, _, _⟩ | ⟨_, i, b, hm, _, hcase⟩
  · rw [h1] at hp
    exact absurd hp (by simp)
  · obtain ⟨hfit, hget, -⟩ := first_match_some _ _ _ _ hm
    obtain ⟨hfree, -⟩ := (fits_iff _ _).mp hfit
    rcases hcase with ⟨_, _, hst⟩ | ⟨_, hst⟩
    · rw [hst]
      have := total_set block_live _ _ _
        { addr := b.addr, size := align4 size, used := true } hget
      simp only [total_append, total_cons, total_nil]
      simp only [block_live, hfree, Bool.false_eq_true, if_false, if_true] at this ⊢
      omega
    · rw [hst]
      have := total_set block_live _ _ _
        { addr := b.addr, size := b.size, used := true } hget
      simp only [block_live, hfree, Bool.false_eq_true, if_false, if_true] at this ⊢
      omega

theorem kfree_live (s : Allocator) (p : Nat)
    (hex : ∃ c ∈ s.mem_blocks, c.used = true ∧ c.addr = p) :
    total block_live (kfree s (some p)).mem_blocks + 1 = total block_live s.mem_blocks := by
  obtain ⟨i, b, hget, hbu, -, hst, -, -, -⟩ := kfree_store_step s p hex
  rw [hst]
  have := total_set block_live _ _ _
    { addr := b.addr, size := b.size, used := false } hget
  simp only [block_live, hbu, Bool.false_eq_true, if_false, if_true] at this ⊢
  omega

theorem fs_create_live (s : Store) (name content : List Nat)
    (h0 : (fs_create s name content).1 = 0) :
    total file_live (fs_create s name content).2.files = total file_live s.files + 1 ∧
    total block_live (fs_create s name content).2.alloc.mem_blocks =
      total block_live s.alloc.mem_blocks + 1 := by
  rcases fs_create_spec s name content with ⟨_, hst⟩ | ⟨-, hrest⟩
  · rw [hst] at h0; exact absurd h0 (by simp)
  · rcases hrest with ⟨_, hst⟩ | ⟨i, f, hslot, hrest⟩
    · rw [hst] at h0; exact absurd h0 (by simp)
    · rcases hrest with ⟨_, hst⟩ | ⟨_, _, hst⟩ | ⟨_, p, hk, hst⟩
      · rw [hst] at h0; exact absurd h0 (by simp)
      · rw [hst] at h0; exact absurd h0 (by simp)
      · obtain ⟨hfu, hget, -⟩ := first_match_some _ _ _ _ hslot
        simp only [Bool.not_eq_true'] at hfu
        rw [hst]
        refine ⟨?_, kmalloc_live _ _ p hk⟩
        have := total_set file_live _ _ _
          (⟨cstr name, some p, strlen content, true⟩ : File) hget
        simp only [file_live, hfu, Bool.false_eq_true, if_false, if_true] at this ⊢
        omega

theorem fs_create_fail_live (s : Store) (name content : List Nat)
    (h0 : (fs_create s name content).1 ≠ 0) :
    total file_live (fs_create s name content).2.files = total file_live s.files ∧
    (fs_create s name content).2.alloc = s.alloc := by
  rcases fs_create_spec s name content with ⟨_, hst⟩ | ⟨-, hrest⟩
  · rw [hst]; exact ⟨rfl, rfl⟩
  · rcases hrest with ⟨_, hst⟩ | ⟨i, f, hslot, hrest⟩
    · rw [hst]; exact ⟨rfl, rfl⟩
    · rcases hrest with ⟨_, hst⟩ | ⟨_, _, hst⟩ | ⟨_, p, hk, hst⟩
      · rw [hst]; exact ⟨rfl, rfl⟩
      · obtain ⟨hfu, hget, -⟩ := first_match_some _ _ _ _ hslot
        simp only [Bool.not_eq_true'] at hfu
        rw [hst]
        refine ⟨?_, rfl⟩
        have := total_set file_live _ _ _ { f with content := none } hget
        simp only [file_live, hfu, Bool.false_eq_true, if_false] at this ⊢
        omega
      · rw [hst] at h0; exact absurd rfl h0

theorem fs_delete_live (s : Store) (h : StoreInv s) (name : List Nat)
    (h0 : (fs_delete s name).1 = 0) :
    total file_live (fs_delete s name).2.files + 1 = total file_live s.files ∧
    total block_live (fs_delete s name).2.alloc.mem_blocks + 1 =
      total block_live s.alloc.mem_blocks := by
  rcases fs_delete_spec s name with ⟨_, hst⟩ | ⟨i, f, hm, hst⟩
  · rw [hst] at h0; exact absurd h0 (by simp)
  · obtain ⟨hnamed, hget, -⟩ := first_match_some _ _ _ _ hm
    obtain ⟨hfu, -⟩ := (is_named_iff _ _).mp hnamed
    obtain ⟨c, hc, hcu, hcc, -⟩ := h.room f (List.getElem?_mem hget) hfu
    rw [hst, hcc]
    refine ⟨?_, kfree_live _ _ ⟨c, hc, hcu, rfl⟩⟩
    have := total_set file_live _ _ _ { f with used := false } hget
    simp only [file_live, hfu, hcc, Bool.false_eq_true, if_false, if_true] at this ⊢
    omega

/-- In every reachable store state the block lengths are multiples of 4 and there are as
many used blocks as live slots. -/
theorem store_reachable_blocks (s : Store) (h : StoreReachable s) :
    (∀ b ∈ s.alloc.mem_blocks, 4 ∣ b.size) ∧
    total block_live s.alloc.mem_blocks = total file_live s.files := by
  induction h with
  | boot => exact ⟨by decide, by decide⟩
  | create s name content _ hs ih =>
    constructor
    · rcases fs_create_spec s name content with ⟨_, hst⟩ | ⟨-, hrest⟩
      · rw [hst]; exact ih.1
      · rcases hrest with ⟨_, hst⟩ | ⟨i, f, hslot, hrest⟩
        · rw [hst]; exact ih.1
        · rcases hrest with ⟨_, hst⟩ | ⟨_, _, hst⟩ | ⟨_, p, hk, hst⟩
          · rw [hst]; exact ih.1
          · rw [hst]; exact ih.1
          · rw [hst]; exact kmalloc_div4 _ _ ih.1
    · by_cases h0 : (fs_create s name content).1 = 0
      · obtain ⟨h1, h2⟩ := fs_create_live s name content h0
        omega
      · obtain ⟨h1, h2⟩ := fs_create_fail_live s name content h0
        rw [h1, h2]
        exact ih.2
  | delete s name hs ih =>
    have hinv := store_reachable_inv s hs
    rcases fs_delete_spec s name with ⟨_, hst⟩ | ⟨i, f, hm, hst⟩
    · rw [hst]; exact ih
    · have h0 : (fs_delete s name).1 = 0 := by rw [hst]
      obtain ⟨h1, h2⟩ := fs_delete_live s hinv name h0
      refine ⟨?_, by omega⟩
      rw [hst]
      exact kfree_div4 _ _ ih.1

/-- A successful `kmalloc` of `n` bytes, `0 < n` and `n + 19 < SIZE_MOD`: the table does
not shrink and stays within 64 descriptors, and the block handed out exceeds the rounded
request by at most 16 bytes unless the table holds 64 descriptors afterwards. -/
theorem kmalloc_slack_step (a : Allocator) (n p : Nat) (hn2 : n + 19 < SIZE_MOD)
    (hlen : a.mem_blocks.length ≤ MAX_BLOCKS) (hp : (kmalloc a n).1 = some p) :
    (kmalloc a n).2.mem_blocks.length ≤ MAX_BLOCKS ∧
    a.mem_blocks.length ≤ (kmalloc a n).2.mem_blocks.length ∧
    ∃ b1 ∈ (kmalloc a n).2.mem_blocks, b1.used = true ∧ b1.addr = p ∧
      (b1.size ≤ spec_round_up4 n + 16 ∨
        (kmalloc a n).2.mem_blocks.length = MAX_BLOCKS) := by
  have hr : align4 n = spec_round_up4 n := align4_of_le n (by omega)
  have hr16 : (align4 n + 16) % SIZE_MOD = spec_round_up4 n + 16 := by
    rw [hr]
    apply Nat.mod_eq_of_lt
    unfold spec_round_up4
    omega
  rcases kmalloc_spec a n with ⟨h1, _, _⟩ | ⟨_, i, b, hm, hp2, hcase⟩
  · rw [h1] at hp
    exact absurd hp (by simp)
  · rw [hp2] at hp
    have hpb : b.addr = p := Option.some.inj hp
    obtain ⟨-, hget, -⟩ := first_match_some _ _ _ _ hm
    rw [hr16] at hcase
    rw [hr] at hcase
    rcases hcase with ⟨_, hlt, hst⟩ | ⟨hno, hst⟩
    · rw [hst]
      simp only [List.length_append, List.length_set, List.length_singleton]
      refine ⟨by omega, by omega, ⟨b.addr, spec_round_up4 n, true⟩, ?_, rfl, hpb,
        Or.inl (by simp only; omega)⟩
      exact List.mem_append_left _ (mem_set_self _ _ _ _ hget)
    · rw [hst]
      simp only [List.length_set]
      refine ⟨hlen, Nat.le_refl _, ⟨b.addr, b.size, true⟩, mem_set_self _ _ _ _ hget, rfl,
        hpb, ?_⟩
      simp only
      by_cases hs : b.size ≤ spec_round_up4 n + 16
      · exact Or.inl hs
      · right
        have : ¬ a.mem_blocks.length < MAX_BLOCKS := fun hl => hno ⟨by omega, hl⟩
        omega

/-- In every reachable store state the descriptor table holds at most 64 descriptors, and
every live slot points at a used block that exceeds the content length plus one, rounded
up to a multiple of 4, by at most 16 bytes unless the table holds 64 descriptors. -/
theorem store_reachable_slack (s : Store) (h : StoreReachable s) :
    s.alloc.mem_blocks.length ≤ MAX_BLOCKS ∧
    ∀ f ∈ s.files, f.used = true →
      ∃ b ∈ s.alloc.mem_blocks, b.used = true ∧ f.content = some b.addr ∧
        (b.size ≤ spec_round_up4 (f.size + 1) + 16 ∨
          s.alloc.mem_blocks.length = MAX_BLOCKS) := by
  induction h with
  | boot =>
    refine ⟨by decide, ?_⟩
    intro f hf hu
    rw [boot_files_unused f hf] at hu
    exact absurd hu (by simp)
  | create s name content _ hs ih =>
    have hinv := store_reachable_inv s hs
    rcases fs_create_spec s name content with ⟨_, hst⟩ | ⟨-, hrest⟩
    · rw [hst]; exact ih
    · rcases hrest with ⟨_, hst⟩ | ⟨i, f0, hslot, hrest⟩
      · rw [hst]; exact ih
      · obtain ⟨hfu, hget, -⟩ := first_match_some _ _ _ _ hslot
        simp only [Bool.not_eq_true'] at hfu
        rcases hrest with ⟨_, hst⟩ | ⟨_, _, hst⟩ | ⟨hle, p, hk, hst⟩
        · rw [hst]; exact ih
        · rw [hst]
          refine ⟨ih.1, ?_⟩
          intro g hg hu
          rcases mem_set_cases _ _ _ _ hg with rfl | ⟨k, _, hk⟩
          · simp only [hfu] at hu
            exact absurd hu (by simp)
          · exact ih.2 g (List.getElem?_mem hk) hu
        · have hM : MAX_FILE_SIZE + 20 < SIZE_MOD := by decide
          obtain ⟨-, -, -, -, hkeep, -⟩ :=
            kmalloc_store_step s.alloc (strlen content + 1) p (by omega) (by omega)
              hinv.pos hinv.in_pool hk
          obtain ⟨hl1, hl2, b1, hb1, hb1u, hb1a, hb1s⟩ :=
            kmalloc_slack_step s.alloc (strlen content + 1) p (by omega) ih.1 hk
          rw [hst]
          refine ⟨hl1, ?_⟩
          intro g hg hu
          rcases mem_set_cases _ _ _ _ hg with rfl | ⟨k, _, hk⟩
          · exact ⟨b1, hb1, hb1u, by simp [hb1a], hb1s⟩
          · obtain ⟨c, hc, hcu, hcc, hcs⟩ := ih.2 g (List.getElem?_mem hk) hu
            refine ⟨c, hkeep c hc hcu, hcu, hcc, ?_⟩
            rcases hcs with hcs | hcs
            · exact Or.inl hcs
            · right
              dsimp only at hl1 hl2 ⊢
              omega
  | delete s name hs ih =>
    have hinv := store_reachable_inv s hs
    rcases fs_delete_spec s name with ⟨_, hst⟩ | ⟨i, f, hm, hst⟩
    · rw [hst]; exact ih
    · obtain ⟨hnamed, hget, -⟩ := first_match_some _ _ _ _ hm
      obtain ⟨hfu, -⟩ := (is_named_iff _ _).mp hnamed
      obtain ⟨c, hc, hcu, hcc, -⟩ := hinv.room f (List.getElem?_mem hget) hfu
      obtain ⟨j, b, hgetb, -, -, hkf, -, hkeep, -⟩ :=
        kfree_store_step s.alloc c.addr ⟨c, hc, hcu, rfl⟩
      have hlen : (kfree s.alloc (some c.addr)).mem_blocks.length =
          s.alloc.mem_blocks.length := by
        rw [hkf]
        simp
      rw [hst, hcc]
      dsimp only
      rw [hlen]
      refine ⟨ih.1, ?_⟩
      intro g hg hu
      rcases mem_set_cases _ _ _ _ hg with rfl | ⟨k, hki, hk⟩
      · exact absurd hu (by simp)
      · obtain ⟨d, hd, hdu, hdc, hds⟩ := ih.2 g (List.getElem?_mem hk) hu
        refine ⟨d, hkeep d hd hdu ?_, hdu, hdc, hds⟩
        intro hda
        exact content_ne_of_ne s hinv i k f g hki hget hk hfu hu c.addr hcc
          (by rw [hdc, hda])

/-- C14 (as amended): in every reachable store state, for every live slot the block whose
address is the content pointer of the slot is in use, is the only block at that address,
and its length is a multiple of 4 that is at least `r`, and at most `r + 16` unless the
descriptor table holds 64 descriptors, where `r` is the content length plus one (the
terminator) rounded up to a multiple of 4. -/
theorem owned_region_length (s : Store) (hs : StoreReachable s) (f : File)
    (hf : f ∈ s.files) (hu : f.used = true) :
    ∃ (j p : Nat) (b : MemBlock), f.content = some p ∧ s.alloc.mem_blocks[j]? = some b ∧
      b.addr = p ∧ b.used = true ∧
      (∀ (j' : Nat) (b' : MemBlock),
        s.alloc.mem_blocks[j']? = some b' → b'.addr = p → j' = j) ∧
      4 ∣ b.size ∧ spec_round_up4 (f.size + 1) ≤ b.size ∧
      (b.size ≤ spec_round_up4 (f.size + 1) + 16 ∨
        s.alloc.mem_blocks.length = MAX_BLOCKS) := by
  have h := store_reachable_inv s hs
  obtain ⟨h4, -⟩ := store_reachable_blocks s hs
  obtain ⟨b, hb, hbu, hbc, hbs⟩ := h.room f hf hu
  obtain ⟨j, hj⟩ := List.getElem?_of_mem hb
  have huniq : ∀ (j' : Nat) (b' : MemBlock),
      s.alloc.mem_blocks[j']? = some b' → b'.addr = b.addr → j' = j := by
    intro j' b' hb' hba'
    by_contra hjj
    have := blocks_apart _ h.alloc.disjoint j' j b' b hjj hb' hj
      (h.pos b' (List.getElem?_mem hb')) (h.pos b hb)
    have := h.pos b hb
    have := h.pos b' (List.getElem?_mem hb')
    omega
  refine ⟨j, b.addr, b, hbc, hj, rfl, hbu, huniq, h4 b hb, ?_, ?_⟩
  · obtain ⟨k, hk⟩ := h4 b hb
    unfold spec_round_up4
    omega
  · obtain ⟨d, hd, -, hdc, hds⟩ := (store_reachable_slack s hs).2 f hf hu
    obtain ⟨jd, hjd⟩ := List.getElem?_of_mem hd
    have hda : d.addr = b.addr := by
      rw [hbc] at hdc
      exact (Option.some.inj hdc).symm
    have hjj := huniq jd d hjd hda
    subst hjj
    rw [hjd] at hj
    rw [← Option.some.inj hj]
    exact hds

theorem store_slack_reachable : StoreReachable store_slack :=
  .create _ _ _ (by decide) (.delete _ _ (.create _ _ _ (by decide) .boot))

theorem owned_region_length_witness :
    (StoreReachable store_slack ∧
      (⟨[98], some 0, 8, true⟩ : File) ∈ store_slack.files ∧
      (⟨[98], some 0, 8, true⟩ : File).used = true) ∧
    ∃ (j p : Nat) (b : MemBlock), (⟨[98], some 0, 8, true⟩ : File).content = some p ∧
      store_slack.alloc.mem_blocks[j]? = some b ∧
      b.addr = p ∧ b.used = true ∧
      (∀ (j' : Nat) (b' : MemBlock),
        store_slack.alloc.mem_blocks[j']? = some b' → b'.addr = p → j' = j) ∧
      4 ∣ b.size ∧ spec_round_up4 ((⟨[98], some 0, 8, true⟩ : File).size + 1) ≤ b.size ∧
      (b.size ≤ spec_round_up4 ((⟨[98], some 0, 8, true⟩ : File).size + 1) + 16 ∨
        store_slack.alloc.mem_blocks.length = MAX_BLOCKS) :=
  ⟨⟨store_slack_reachable, by decide, rfl⟩,
    owned_region_length store_slack store_slack_reachable ⟨[98], some 0, 8, true⟩
      (by decide) rfl⟩

/-- C14 (counterexample): `store_slack` is reachable (create "a" with 20 bytes, delete it,
create "b" with 8 bytes).  The live object "b" has content length 8, which rounds up to 8
(12 with the terminator), but the used block at its buffer has length 24: the block that
"a" left exceeds the request by no more than 16 bytes and is not split. -/
theorem owned_region_longer_than_round_up :
    StoreReachable store_slack ∧
    fs_read store_slack [98] = some ⟨[98], some 0, 8, true⟩ ∧
    store_slack.alloc.mem_blocks = [⟨0, 24, true⟩, ⟨24, 32744, false⟩] ∧
    spec_round_up4 8 = 8 ∧ spec_round_up4 (8 + 1) = 12 :=
  ⟨store_slack_reachable, by decide, by decide, by decide, by decide⟩

set_option maxRecDepth 100000 in
/-- The bound `r + 16` does not hold once the descriptor table is full: `fragmented_store`
is reachable and holds 64 descriptors, and its live object "z", of content length 300,
owns the block at offset 8064 whole, 24704 bytes, where `r + 16` is 320. -/
theorem owned_region_whole_block_when_table_full :
    StoreReachable fragmented_store ∧
    fragmented_store.alloc.mem_blocks.length = MAX_BLOCKS ∧
    fs_read fragmented_store [122] = some ⟨[122], some 8064, 300, true⟩ ∧
    (⟨8064, 24704, true⟩ : MemBlock) ∈ fragmented_store.alloc.mem_blocks ∧
    spec_round_up4 (300 + 1) + 16 = 320 :=
  ⟨fragmented_store_reachable, by decide, by decide, by decide, by decide⟩

/-- The bound `r + 16` is attained and is the threshold of the split: "b" with 8 bytes of
content asks for `r = 12` bytes.  When the block that "a" left has 28 bytes, `r + 16`, "b"
owns all 28 bytes; when it has 32 bytes it is cut and "b" owns 12 bytes. -/
theorem owned_region_slack_threshold :
    StoreReachable
      (fs_create (fs_delete (fs_create boot [97] (List.replicate 27 120)).2 [97]).2 [98]
        (List.replicate 8 121)).2 ∧
    (fs_create (fs_delete (fs_create boot [97] (List.replicate 27 120)).2 [97]).2 [98]
        (List.replicate 8 121)).2.alloc.mem_blocks =
      [⟨0, 28, true⟩, ⟨28, 32740, false⟩] ∧
    StoreReachable
      (fs_create (fs_delete (fs_create boot [97] (List.replicate 31 120)).2 [97]).2 [98]
        (List.replicate 8 121)).2 ∧
    (fs_create (fs_delete (fs_create boot [97] (List.replicate 31 120)).2 [97]).2 [98]
        (List.replicate 8 121)).2.alloc.mem_blocks =
      [⟨0, 12, true⟩, ⟨32, 32736, false⟩, ⟨12, 20, false⟩] ∧
    spec_round_up4 (8 + 1) + 16 = 28 :=
  ⟨.create _ _ _ (by decide) (.delete _ _ (.create _ _ _ (by decide) .boot)), by decide,
    .create _ _ _ (by decide) (.delete _ _ (.create _ _ _ (by decide) .boot)), by decide,
    by decide⟩

/-! ## Reuse of a released block -/

theorem room_round_up (s : Store) (hs : StoreReachable s) (f : File) (hf : f ∈ s.files)
    (hu : f.used = true) :
    ∃ b ∈ s.alloc.mem_blocks, b.used = true ∧ f.content = some b.addr ∧
      spec_round_up4 (f.size + 1) ≤ b.size := by
  obtain ⟨b, hb, hbu, hbc, hbs⟩ := (store_reachable_inv s hs).room f hf hu
  obtain ⟨k, hk⟩ := (store_reachable_blocks s hs).1 b hb
  refine ⟨b, hb, hbu, hbc, ?_⟩
  unfold spec_round_up4
  omega

theorem fs_create_read (s : Store) (name content : List Nat)
    (h0 : (fs_create s name content).1 = 0) :
    ∃ (i p : Nat) (f0 : File), s.files[i]? = some f0 ∧ f0.used = false ∧
      strlen content ≤ MAX_FILE_SIZE ∧
      (fs_create s name content).2.files =
        s.files.set i ⟨cstr name, some p, strlen content, true⟩ ∧
      fs_read (fs_create s name content).2 name =
        some ⟨cstr name, some p, strlen content, true⟩ := by
  rcases fs_create_spec s name content with ⟨_, hst⟩ | ⟨hnone, hrest⟩
  · rw [hst] at h0; exact absurd h0 (by simp)
  · rcases hrest with ⟨_, hst⟩ | ⟨i, f0, hslot, hrest⟩
    · rw [hst] at h0; exact absurd h0 (by simp)
    · rcases hrest with ⟨_, hst⟩ | ⟨_, _, hst⟩ | ⟨hle, p, hk, hst⟩
      · rw [hst] at h0; exact absurd h0 (by simp)
      · rw [hst] at h0; exact absurd h0 (by simp)
      · obtain ⟨hfu, hget, -⟩ := first_match_some _ _ _ _ hslot
        simp only [Bool.not_eq_true'] at hfu
        refine ⟨i, p, f0, hget, hfu, hle, by rw [hst], ?_⟩
        rw [hst]
        unfold fs_read
        dsimp only
        rw [first_match_set_hit (is_named name) s.files i f0 _
          ((first_match_none _ _).mp hnone) hget
          ((is_named_iff _ _).mpr ⟨rfl, cstr_idem name⟩)]

theorem total_used_single (l : List MemBlock) (blk : MemBlock) (hb : blk ∈ l)
    (hu : blk.used = true) (h1 : total block_live l = 1) : total used_size l = blk.size := by
  obtain ⟨i, hi⟩ := List.getElem?_of_mem hb
  have e1 := total_set block_live l i blk ⟨blk.addr, blk.size, false⟩ hi
  have e2 := total_set used_size l i blk ⟨blk.addr, blk.size, false⟩ hi
  simp only [block_live, hu, Bool.false_eq_true, if_false, if_true] at e1
  simp only [used_size, hu, Bool.false_eq_true, if_false, if_true] at e2
  have h0 : total block_live (l.set i ⟨blk.addr, blk.size, false⟩) = 0 := by omega
  have h00 : total used_size (l.set i ⟨blk.addr, blk.size, false⟩) = 0 := by
    apply total_eq_zero
    intro c hc
    have := total_zero_mem _ _ h0 c hc
    simp only [block_live] at this
    simp only [used_size]
    split
    · rename_i hcu
      rw [if_pos hcu] at this
      exact absurd this (by simp)
    · rfl
  simp only [used_size] at h00
  omega

/-- C13: in every reachable store state, if `fs_create(a, ca)` returns 0 and
`fs_delete(a)` follows (it returns 0), then `fs_create(b, cb)` returns 0 for every name
`b` of at most 31 characters that is not live at that point and every content `cb` no
longer than `ca`; and when no slot was live at the start, `total_allocated` afterwards
is the length of the one block that holds the content of "b". -/
theorem region_reuse (s : Store) (hs : StoreReachable s) (a ca b cb : List Nat)
    (ha : strlen a < MAX_FILENAME) (hb : strlen b < MAX_FILENAME)
    (hcreate : (fs_create s a ca).1 = 0) (hlen : strlen cb ≤ strlen ca)
    (hnot : ¬ ∃ f ∈ (fs_delete (fs_create s a ca).2 a).2.files,
      f.used = true ∧ f.name = cstr b) :
    (fs_delete (fs_create s a ca).2 a).1 = 0 ∧
    (fs_create (fs_delete (fs_create s a ca).2 a).2 b cb).1 = 0 ∧
    ((∀ f ∈ s.files, f.used = false) →
      ∃ (f : File) (p : Nat) (blk : MemBlock),
        fs_read (fs_create (fs_delete (fs_create s a ca).2 a).2 b cb).2 b = some f ∧
        f.size = strlen cb ∧ f.content = some p ∧
        blk ∈ (fs_create (fs_delete (fs_create s a ca).2 a).2 b cb).2.alloc.mem_blocks ∧
        blk.addr = p ∧ blk.used = true ∧
        (fs_create (fs_delete (fs_create s a ca).2 a).2 b cb).2.alloc.total_allocated =
          blk.size) := by
  have hs1 : StoreReachable (fs_create s a ca).2 := .create s a ca ha hs
  have hs2 : StoreReachable (fs_delete (fs_create s a ca).2 a).2 := .delete _ a hs1
  have hs3 : StoreReachable (fs_create (fs_delete (fs_create s a ca).2 a).2 b cb).2 :=
    .create _ b cb hb hs2
  have h1 := store_reachable_inv _ hs1
  have h2 := store_reachable_inv _ hs2
  have h3 := store_reachable_inv _ hs3
  obtain ⟨i, p, f0, hget0, hf0u, hlea, hfiles1, hread1⟩ := fs_create_read s a ca hcreate
  -- the slot of "a" in the state after the first call
  have hgeta : (fs_create s a ca).2.files[i]? =
      some ⟨cstr a, some p, strlen ca, true⟩ := by
    rw [hfiles1]
    have hlt : i < s.files.length := (List.getElem?_eq_some_iff.mp hget0).1
    simp [hlt]
  have hamem := List.getElem?_mem hgeta
  -- the delete finds it
  rcases fs_delete_spec (fs_create s a ca).2 a with ⟨hnone, _⟩ | ⟨i', f', hm, hst2⟩
  · have := (first_match_none _ _).mp hnone _ hamem
    rw [(is_named_iff _ _).mpr ⟨rfl, cstr_idem a⟩] at this
    exact absurd this (by simp)
  · obtain ⟨hnamed, hget', -⟩ := first_match_some _ _ _ _ hm
    obtain ⟨hfu', hfn'⟩ := (is_named_iff _ _).mp hnamed
    have hfname' : f'.name = cstr a := by
      rw [← h1.nul_free f' (List.getElem?_mem hget') hfu', hfn']
    have hii : i' = i := by
      by_contra hne
      have e2 := total_two_le (named (cstr a)) _ i' i f' _ hne hget' hgeta
      have e1 := h1.names (cstr a)
      simp only [named, hfu', hfname', and_self, if_true] at e2
      omega
    subst hii
    have hff : f' = ⟨cstr a, some p, strlen ca, true⟩ := by
      rw [hget'] at hgeta
      exact Option.some.inj hgeta
    have hdel0 : (fs_delete (fs_create s a ca).2 a).1 = 0 := by rw [hst2]
    -- the block of "a"
    obtain ⟨blk, hblk, hblku, hblkc, hblks⟩ := room_round_up _ hs1 f' (List.getElem?_mem hget') hfu'
    rw [hff] at hblkc hblks
    simp only [Option.some.injEq] at hblkc hblks
    obtain ⟨j, bf, hgetb, hbfu, hbfa, hkf, -, -, -⟩ :=
      kfree_store_step (fs_create s a ca).2.alloc p ⟨blk, hblk, hblku, hblkc.symm⟩
    obtain ⟨jb, hjb⟩ := List.getElem?_of_mem hblk
    have hbfblk : bf = blk := by
      by_cases hjj : j = jb
      · subst hjj
        rw [hgetb] at hjb
        exact Option.some.inj hjb
      · have := blocks_apart _ h1.alloc.disjoint j jb bf blk hjj hgetb hjb
          (h1.pos bf (List.getElem?_mem hgetb)) (h1.pos blk hblk)
        have := h1.pos bf (List.getElem?_mem hgetb)
        have := h1.pos blk hblk
        omega
    have hfiles2 : (fs_delete (fs_create s a ca).2 a).2.files =
        (fs_create s a ca).2.files.set i' { f' with used := false } := by rw [hst2]
    have halloc2 : (fs_delete (fs_create s a ca).2 a).2.alloc =
        kfree (fs_create s a ca).2.alloc (some p) := by
      rw [hst2, hff]
    have hfreeblk : (⟨bf.addr, bf.size, false⟩ : MemBlock) ∈
        (fs_delete (fs_create s a ca).2 a).2.alloc.mem_blocks := by
      rw [halloc2, hkf]
      exact mem_set_self _ _ _ _ hgetb
    have hfreeslot : ({ f' with used := false } : File) ∈
        (fs_delete (fs_create s a ca).2 a).2.files := by
      rw [hfiles2]
      exact mem_set_self _ _ _ _ hget'
    -- the second create succeeds
    have hM : MAX_FILE_SIZE + 20 < SIZE_MOD := by decide
    have hcreate2 : (fs_create (fs_delete (fs_create s a ca).2 a).2 b cb).1 = 0 := by
      rcases fs_create_spec (fs_delete (fs_create s a ca).2 a).2 b cb with
        ⟨⟨r, hr⟩, _⟩ | ⟨-, hrest⟩
      · obtain ⟨k, g⟩ := r
        obtain ⟨hgn, hgget, -⟩ := first_match_some _ _ _ _ hr
        obtain ⟨hgu, hgname⟩ := (is_named_iff _ _).mp hgn
        have hgmem := List.getElem?_mem hgget
        exact absurd ⟨g, hgmem, hgu, by rw [← h2.nul_free g hgmem hgu, hgname]⟩ hnot
      · rcases hrest with ⟨hfull, _⟩ | ⟨k, g, _, hrest⟩
        · have := (first_match_none _ _).mp hfull _ hfreeslot
          simp at this
        · rcases hrest with ⟨hbig, _⟩ | ⟨_, hknone, _⟩ | ⟨_, q, _, hst3⟩
          · omega
          · rcases kmalloc_spec (fs_delete (fs_create s a ca).2 a).2.alloc (strlen cb + 1)
              with ⟨_, _, h3⟩ | ⟨_, _, _, _, hp3, _⟩
            · rcases h3 with h3 | h3
              · omega
              · have hfit := h3 _ hfreeblk
                rw [align4_of_le _ (by omega)] at hfit
                have ht : fits ((strlen cb + 1 + 3) / 4 * 4) ⟨bf.addr, bf.size, false⟩ = true := by
                  rw [fits_iff]
                  refine ⟨rfl, ?_⟩
                  rw [hbfblk]
                  simp only
                  unfold spec_round_up4 at hblks
                  omega
                rw [ht] at hfit
                exact absurd hfit (by simp)
            · rw [hp3] at hknone
              exact absurd hknone (by simp)
          · rw [hst3]
    refine ⟨hdel0, hcreate2, ?_⟩
    intro hempty
    obtain ⟨i3, p3, g0, -, -, -, -, hread3⟩ := fs_create_read _ b cb hcreate2
    have hfmem : (⟨cstr b, some p3, strlen cb, true⟩ : File) ∈
        (fs_create (fs_delete (fs_create s a ca).2 a).2 b cb).2.files := by
      unfold fs_read at hread3
      cases hm3 : first_match (is_named b)
          (fs_create (fs_delete (fs_create s a ca).2 a).2 b cb).2.files with
      | none => rw [hm3] at hread3; exact absurd hread3 (by simp)
      | some r =>
        obtain ⟨k, g⟩ := r
        rw [hm3] at hread3
        have hg : g = ⟨cstr b, some p3, strlen cb, true⟩ := Option.some.inj hread3
        rw [← hg]
        exact (first_match_mem _ _ _ _ hm3).1
    obtain ⟨blk3, hblk3, hblk3u, hblk3c, -⟩ := h3.room _ hfmem rfl
    simp only [Option.some.injEq] at hblk3c
    refine ⟨_, p3, blk3, hread3, rfl, rfl, hblk3, hblk3c.symm, hblk3u, ?_⟩
    -- one live slot, hence one used block
    have hc0 : total file_live s.files = 0 := by
      apply total_eq_zero
      intro f hf
      simp [file_live, hempty f hf]
    have hc1 := (fs_create_live s a ca hcreate).1
    have hc2 := (fs_delete_live _ h1 a hdel0).1
    have hc3 := (fs_create_live _ b cb hcreate2).1
    have hcount := (store_reachable_blocks _ hs3).2
    rw [h3.alloc.counter]
    exact total_used_single _ blk3 hblk3 hblk3u (by omega)

theorem region_reuse_witness :
    (StoreReachable boot ∧ strlen [97] < MAX_FILENAME ∧ strlen [98] < MAX_FILENAME ∧
      (fs_create boot [97] (List.replicate 10 120)).1 = 0 ∧
      strlen (List.replicate 8 121) ≤ strlen (List.replicate 10 120) ∧
      ¬ ∃ f ∈ (fs_delete (fs_create boot [97] (List.replicate 10 120)).2 [97]).2.files,
        f.used = true ∧ f.name = cstr [98]) ∧
    ((fs_delete (fs_create boot [97] (List.replicate 10 120)).2 [97]).1 = 0 ∧
      (fs_create (fs_delete (fs_create boot [97] (List.replicate 10 120)).2 [97]).2 [98]
        (List.replicate 8 121)).1 = 0 ∧
      ((∀ f ∈ boot.files, f.used = false) →
        ∃ (f : File) (p : Nat) (blk : MemBlock),
          fs_read (fs_create (fs_delete (fs_create boot [97] (List.replicate 10 120)).2
            [97]).2 [98] (List.replicate 8 121)).2 [98] = some f ∧
          f.size = strlen (List.replicate 8 121) ∧ f.content = some p ∧
          blk ∈ (fs_create (fs_delete (fs_create boot [97] (List.replicate 10 120)).2
            [97]).2 [98] (List.replicate 8 121)).2.alloc.mem_blocks ∧
          blk.addr = p ∧ blk.used = true ∧
          (fs_create (fs_delete (fs_create boot [97] (List.replicate 10 120)).2
            [97]).2 [98] (List.replicate 8 121)).2.alloc.total_allocated = blk.size)) ∧
    store_reused.alloc.total_allocated = 12 ∧
    store_reused.alloc.mem_blocks = [⟨0, 12, true⟩, ⟨12, 32756, false⟩] :=
  ⟨⟨.boot, by decide, by decide, by decide, by decide, by decide⟩,
    region_reuse boot .boot [97] (List.replicate 10 120) [98] (List.replicate 8 121)
      (by decide) (by decide) (by decide) (by decide) (by decide),
    by decide, by decide⟩

/-! ## Listing -/

theorem ls_entries_append (l₁ l₂ : List File) :
    ls_entries (l₁ ++ l₂) = ls_entries l₁ ++ ls_entries l₂ := by
  induction l₁ with
  | nil => rfl
  | cons f l ih =>
    by_cases hf : f.used = true
    · simp [ls_entries, hf, ih]
    · simp [ls_entries, hf, ih]

theorem ls_entries_unused (l : List File) (h : ∀ f ∈ l, f.used = false) :
    ls_entries l = [] := by
  induction l with
  | nil => rfl
  | cons f l ih =>
    have hf := h f (List.mem_cons_self _ _)
    simp [ls_entries, hf, ih (fun g hg => h g (List.mem_cons_of_mem _ hg))]

theorem first_match_append_skip {α : Type} (p : α → Bool) (pre suf : List α) (g : α)
    (h : ∀ x ∈ pre, p x = false) (hg : p g = true) :
    first_match p (pre ++ g :: suf) = some (pre.length, g) := by
  induction pre with
  | nil => simp [first_match, hg]
  | cons a pre ih =>
    have ha := h a (List.mem_cons_self _ _)
    have e := ih (fun x hx => h x (List.mem_cons_of_mem _ hx))
    rw [List.cons_append]
    simp only [first_match, ha, Bool.false_eq_true, if_false]
    rw [e]
    rfl

theorem fs_create_slot (s : Store) (name content : List Nat)
    (h0 : (fs_create s name content).1 = 0) :
    ∃ (i p : Nat) (f0 : File), first_match (fun f => !f.used) s.files = some (i, f0) ∧
      (fs_create s name content).2.files =
        s.files.set i ⟨cstr name, some p, strlen content, true⟩ := by
  rcases fs_create_spec s name content with ⟨_, hst⟩ | ⟨hnone, hrest⟩
  · rw [hst] at h0; exact absurd h0 (by simp)
  · rcases hrest with ⟨_, hst⟩ | ⟨i, f0, hslot, hrest⟩
    · rw [hst] at h0; exact absurd h0 (by simp)
    · rcases hrest with ⟨_, hst⟩ | ⟨_, _, hst⟩ | ⟨hle, p, hk, hst⟩
      · rw [hst] at h0; exact absurd h0 (by simp)
      · rw [hst] at h0; exact absurd h0 (by simp)
      · exact ⟨i, p, f0, hslot, by rw [hst]⟩

theorem create_all_ls (reqs : List (List Nat × List Nat)) :
    ∀ (s : Store) (pre suf : List File), s.files = pre ++ suf →
      (∀ f ∈ pre, f.used = true) → (∀ f ∈ suf, f.used = false) →
      (∀ c ∈ (create_all s reqs).1, c = 0) →
      ls_entries (create_all s reqs).2.files =
        ls_entries pre ++ reqs.map (fun r => (cstr r.1, strlen r.2)) ∧
      reqs.length ≤ suf.length := by
  induction reqs with
  | nil =>
    intro s pre suf hfiles _ hsuf _
    simp only [create_all, List.map_nil, List.append_nil, List.length_nil]
    rw [hfiles, ls_entries_append, ls_entries_unused suf hsuf, List.append_nil]
    exact ⟨rfl, Nat.zero_le _⟩
  | cons r rs ih =>
    intro s pre suf hfiles hpre hsuf hok
    simp only [create_all] at hok ⊢
    have h0 : (fs_create s r.1 r.2).1 = 0 := hok _ (List.mem_cons_self _ _)
    have hrest : ∀ c ∈ (create_all (fs_create s r.1 r.2).2 rs).1, c = 0 :=
      fun c hc => hok c (List.mem_cons_of_mem _ hc)
    obtain ⟨i, p, f0, hslot, hfiles1⟩ := fs_create_slot s r.1 r.2 h0
    rw [hfiles] at hslot
    cases suf with
    | nil =>
      rw [List.append_nil] at hslot
      obtain ⟨hf0, hget0, -⟩ := first_match_some _ _ _ _ hslot
      have := hpre f0 (List.getElem?_mem hget0)
      simp [this] at hf0
    | cons g suf' =>
      have hg := hsuf g (List.mem_cons_self _ _)
      rw [first_match_append_skip _ pre suf' g (fun x hx => by simp [hpre x hx])
        (by simp [hg])] at hslot
      simp only [Option.some.injEq, Prod.mk.injEq] at hslot
      obtain ⟨hi, -⟩ := hslot
      have hfiles1' : (fs_create s r.1 r.2).2.files =
          (pre ++ [⟨cstr r.1, some p, strlen r.2, true⟩]) ++ suf' := by
        rw [hfiles1, hfiles, ← hi]
        simp
      have hpre' : ∀ f ∈ pre ++ [(⟨cstr r.1, some p, strlen r.2, true⟩ : File)],
          f.used = true := by
        intro f hf
        rcases List.mem_append.mp hf with hf | hf
        · exact hpre f hf
        · simp only [List.mem_singleton] at hf
          rw [hf]
      obtain ⟨e1, e2⟩ := ih _ _ suf' hfiles1' hpre'
        (fun f hf => hsuf f (List.mem_cons_of_mem _ hf)) hrest
      refine ⟨?_, by simp only [List.length_cons]; omega⟩
      rw [e1, ls_entries_append]
      simp [ls_entries]

/-- C15: starting from a store with no live slot (the empty store), after a run of
`fs_create` calls that all return 0, the listing of `cmd_ls` has exactly one entry per
call, the k-th entry being the name of the k-th call with the length of its content; the
number of calls is at most the number of slots; and `cmd_ls` leaves the store as it was,
so a second listing equals the first. -/
theorem listing_in_creation_order (s : Store) (reqs : List (List Nat × List Nat))
    (hempty : ∀ f ∈ s.files, f.used = false)
    (hok : ∀ c ∈ (create_all s reqs).1, c = 0) :
    (cmd_ls (create_all s reqs).2).1 = reqs.map (fun r => (cstr r.1, strlen r.2)) ∧
    (cmd_ls (create_all s reqs).2).1.length = reqs.length ∧
    reqs.length ≤ s.files.length ∧
    (cmd_ls (create_all s reqs).2).2 = (create_all s reqs).2 ∧
    (cmd_ls (cmd_ls (create_all s reqs).2).2).1 = (cmd_ls (create_all s reqs).2).1 := by
  obtain ⟨e1, e2⟩ := create_all_ls reqs s [] s.files rfl (fun f hf => by simp at hf) hempty hok
  simp only [ls_entries, List.nil_append] at e1
  refine ⟨e1, ?_, e2, rfl, rfl⟩
  simp only [cmd_ls]
  rw [e1, List.length_map]

theorem listing_in_creation_order_witness :
    ((∀ f ∈ boot.files, f.used = false) ∧
      ∀ c ∈ (create_all boot [([98], [49, 50, 51]), ([97], [52])]).1, c = 0) ∧
    ((cmd_ls (create_all boot [([98], [49, 50, 51]), ([97], [52])]).2).1 =
        [([98], [49, 50, 51]), ([97], [52])].map (fun r => (cstr r.1, strlen r.2)) ∧
      (cmd_ls (create_all boot [([98], [49, 50, 51]), ([97], [52])]).2).1.length =
        [([98], [49, 50, 51]), ([97], [52])].length ∧
      [([98], [49, 50, 51]), ([97], [52])].length ≤ boot.files.length ∧
      (cmd_ls (create_all boot [([98], [49, 50, 51]), ([97], [52])]).2).2 =
        (create_all boot [([98], [49, 50, 51]), ([97], [52])]).2 ∧
      (cmd_ls (cmd_ls (create_all boot [([98], [49, 50, 51]), ([97], [52])]).2).2).1 =
        (cmd_ls (create_all boot [([98], [49, 50, 51]), ([97], [52])]).2).1) ∧
    (cmd_ls (create_all boot [([98], [49, 50, 51]), ([97], [52])]).2).1 =
      [([98], 3), ([97], 1)] ∧
    boot.files.length = MAX_FILES :=
  ⟨⟨by decide, by decide⟩,
    listing_in_creation_order boot [([98], [49, 50, 51]), ([97], [52])] (by decide) (by decide),
    by decide, by decide⟩

/-! ## Console: the loops in closed form -/

theorem cell_index_eq (x y : Nat) (hx : x ≤ VGA_WIDTH) (hy : y ≤ VGA_HEIGHT) :
    cell_index x y = y * 80 + x := by
  unfold cell_index
  have hw : VGA_WIDTH = 80 := rfl
  have hh : VGA_HEIGHT = 25 := rfl
  have hM : SIZE_MOD = 4294967296 := rfl
  rw [hw] at hx ⊢
  rw [hh] at hy
  apply Nat.mod_eq_of_lt
  omega

theorem fill_row_eq (y : Nat) (hy : y < VGA_HEIGHT) (v : Nat) (n : Nat) (hn : n ≤ VGA_WIDTH)
    (buf : Nat → Nat) (i : Nat) :
    for_loop (fun x buf => Function.update buf (cell_index x y) v) n buf i =
      if y * 80 ≤ i ∧ i < y * 80 + n then v else buf i := by
  induction n with
  | zero =>
    simp only [for_loop]
    rw [if_neg (by omega)]
  | succ n ih =>
    simp only [for_loop]
    rw [cell_index_eq n y (by omega) (by omega)]
    by_cases hi : i = y * 80 + n
    · subst hi
      rw [Function.update_same, if_pos (by omega)]
    · rw [Function.update_noteq hi, ih (by omega)]
      by_cases h1 : y * 80 ≤ i ∧ i < y * 80 + n
      · rw [if_pos h1, if_pos (by omega)]
      · rw [if_neg h1, if_neg (by omega)]

/-- An outer loop over rows whose body stores `v` in the 80 cells of row `y`. -/
theorem fill_rows_eq (row : Nat → (Nat → Nat) → Nat → Nat) (v : Nat)
    (hrow : ∀ y, y < VGA_HEIGHT → ∀ buf i,
      row y buf i = if y * 80 ≤ i ∧ i < y * 80 + 80 then v else buf i)
    (m : Nat) (hm : m ≤ VGA_HEIGHT) (buf : Nat → Nat) (i : Nat) :
    for_loop row m buf i = if i < m * 80 then v else buf i := by
  induction m with
  | zero =>
    simp only [for_loop]
    rw [if_neg (by omega)]
  | succ m ih =>
    simp only [for_loop]
    rw [hrow m (by omega), ih (by omega)]
    split_ifs <;> first | rfl | (exfalso; omega)

theorem fill_grid_eq (buf : Nat → Nat) (v i : Nat) :
    fill_grid buf v i = if i < 2000 then v else buf i := by
  unfold fill_grid
  rw [fill_rows_eq _ v (fun y hy buf i => fill_row_eq y hy v VGA_WIDTH (Nat.le_refl _) buf i)
    VGA_HEIGHT (Nat.le_refl _)]
  rfl

theorem copy_row_eq (y : Nat) (hy : y + 1 < VGA_HEIGHT) (n : Nat) (hn : n ≤ VGA_WIDTH)
    (buf : Nat → Nat) (i : Nat) :
    for_loop (fun x buf =>
      Function.update buf (cell_index x y) (buf (cell_index x (y + 1)))) n buf i =
      if y * 80 ≤ i ∧ i < y * 80 + n then buf (i + 80) else buf i := by
  have hw : VGA_WIDTH = 80 := rfl
  induction n generalizing i with
  | zero =>
    simp only [for_loop]
    rw [if_neg (by omega)]
  | succ n ih =>
    simp only [for_loop]
    rw [cell_index_eq n y (by omega) (by omega),
      cell_index_eq n (y + 1) (by omega) (by omega)]
    by_cases hi : i = y * 80 + n
    · subst hi
      rw [Function.update_same, if_pos (by omega), ih (by omega), if_neg (by omega)]
      congr 1
      omega
    · rw [Function.update_noteq hi, ih (by omega)]
      by_cases h1 : y * 80 ≤ i ∧ i < y * 80 + n
      · rw [if_pos h1, if_pos (by omega)]
      · rw [if_neg h1, if_neg (by omega)]

/-- An outer loop over rows whose body copies row `y + 1` to row `y`. -/
theorem copy_rows_eq (row : Nat → (Nat → Nat) → Nat → Nat)
    (hrow : ∀ y, y + 1 < VGA_HEIGHT → ∀ buf i,
      row y buf i = if y * 80 ≤ i ∧ i < y * 80 + 80 then buf (i + 80) else buf i)
    (m : Nat) (hm : m < VGA_HEIGHT) (buf : Nat → Nat) (i : Nat) :
    for_loop row m buf i = if i < m * 80 then buf (i + 80) else buf i := by
  induction m generalizing i with
  | zero =>
    simp only [for_loop]
    rw [if_neg (by omega)]
  | succ m ih =>
    simp only [for_loop]
    rw [hrow m (by omega), ih (by omega), ih (by omega)]
    split_ifs <;> first | rfl | (exfalso; omega)

/-- The buffer after `terminal_scroll`, cell by cell. -/
theorem terminal_scroll_buffer (t : Terminal) (i : Nat) :
    (terminal_scroll t).terminal_buffer i =
      if i < 1920 then t.terminal_buffer (i + 80)
      else if i < 2000 then vga_entry 32 t.terminal_color
      else t.terminal_buffer i := by
  simp only [terminal_scroll]
  rw [fill_row_eq (VGA_HEIGHT - 1) (by decide) _ VGA_WIDTH (Nat.le_refl _),
    copy_rows_eq _ (fun y hy buf i => copy_row_eq y hy VGA_WIDTH (Nat.le_refl _) buf i)
      (VGA_HEIGHT - 1) (by decide)]
  have hh : VGA_HEIGHT - 1 = 24 := rfl
  have hw : VGA_WIDTH = 80 := rfl
  rw [hh, hw]
  split_ifs <;> first | rfl | (exfalso; omega)

theorem terminal_scroll_fields (t : Terminal) :
    (terminal_scroll t).terminal_row = 24 ∧
    (terminal_scroll t).terminal_column = t.terminal_column ∧
    (terminal_scroll t).terminal_color = t.terminal_color :=
  ⟨rfl, rfl, rfl⟩

/-! ## Console: one character -/

theorem next_line_fields (t : Terminal) (hr : t.terminal_row < VGA_HEIGHT) :
    (next_line t).terminal_column = 0 ∧
    (next_line t).terminal_color = t.terminal_color ∧
    (t.terminal_row + 1 < VGA_HEIGHT →
      (next_line t).terminal_row = t.terminal_row + 1 ∧
      (next_line t).terminal_buffer = t.terminal_buffer) ∧
    (t.terminal_row + 1 = VGA_HEIGHT →
      next_line t = terminal_scroll { t with terminal_column := 0, terminal_row := 25 }) := by
  have hh : VGA_HEIGHT = 25 := rfl
  have hM : SIZE_MOD = 4294967296 := rfl
  rw [hh] at hr ⊢
  have hmod : (t.terminal_row + 1) % SIZE_MOD = t.terminal_row + 1 :=
    Nat.mod_eq_of_lt (by omega)
  have e : next_line t =
      if t.terminal_row + 1 = 25 then
        terminal_scroll { t with terminal_column := 0, terminal_row := t.terminal_row + 1 }
      else { t with terminal_column := 0, terminal_row := t.terminal_row + 1 } := by
    unfold next_line
    simp only [hmod]
    rfl
  by_cases h25 : t.terminal_row + 1 = 25
  · rw [e, if_pos h25, h25]
    exact ⟨rfl, rfl, fun h => absurd h (by omega), fun _ => rfl⟩
  · rw [e, if_neg h25]
    exact ⟨rfl, rfl, fun _ => ⟨rfl, rfl⟩, fun h => absurd h h25⟩

theorem next_line_grid (t : Terminal) (hr : t.terminal_row < VGA_HEIGHT) :
    (next_line t).terminal_row < VGA_HEIGHT ∧ (next_line t).terminal_column < VGA_WIDTH ∧
    (next_line t).terminal_color = t.terminal_color ∧
    ∀ i, 2000 ≤ i → (next_line t).terminal_buffer i = t.terminal_buffer i := by
  obtain ⟨hc, hcol, hlt, heq⟩ := next_line_fields t hr
  have hh : VGA_HEIGHT = 25 := rfl
  rw [hh] at hr hlt heq ⊢
  refine ⟨?_, by rw [hc]; decide, hcol, ?_⟩
  · by_cases h25 : t.terminal_row + 1 = 25
    · rw [heq h25]
      exact (by decide : (24 : Nat) < 25)
    · rw [(hlt (by omega)).1]
      omega
  · intro i hi
    by_cases h25 : t.terminal_row + 1 = 25
    · rw [heq h25, terminal_scroll_buffer, if_neg (by omega), if_neg (by omega)]
    · rw [(hlt (by omega)).2]

/-- An ordinary byte: the entry is stored at the cursor and the column advances; at
column 79 the cursor goes to the next line. -/
theorem terminal_putchar_plain (t : Terminal) (c : Nat) (h10 : c ≠ 10) (h8 : c ≠ 8)
    (hc : t.terminal_column < VGA_WIDTH) :
    (t.terminal_column + 1 < VGA_WIDTH →
      terminal_putchar t c =
        { t with
          terminal_column := t.terminal_column + 1,
          terminal_buffer := Function.update t.terminal_buffer
            (cell_index t.terminal_column t.terminal_row) (vga_entry c t.terminal_color) }) ∧
    (t.terminal_column + 1 = VGA_WIDTH →
      terminal_putchar t c =
        next_line
          { t with
            terminal_column := VGA_WIDTH,
            terminal_buffer := Function.update t.terminal_buffer
              (cell_index t.terminal_column t.terminal_row) (vga_entry c t.terminal_color) }) := by
  have hw : VGA_WIDTH = 80 := rfl
  have hM : SIZE_MOD = 4294967296 := rfl
  rw [hw] at hc ⊢
  have hmod : (t.terminal_column + 1) % SIZE_MOD = t.terminal_column + 1 :=
    Nat.mod_eq_of_lt (by omega)
  unfold terminal_putchar
  simp only [h10, h8, if_false, terminal_putentryat, hmod, hw]
  constructor
  · intro h
    rw [if_neg (by omega)]
  · intro h
    rw [if_pos h, h]

theorem terminal_putchar_grid (t : Terminal) (c : Nat) (hr : t.terminal_row < VGA_HEIGHT)
    (hc : t.terminal_column < VGA_WIDTH) :
    (terminal_putchar t c).terminal_row < VGA_HEIGHT ∧
    (terminal_putchar t c).terminal_column < VGA_WIDTH ∧
    (terminal_putchar t c).terminal_color = t.terminal_color ∧
    ∀ i, 2000 ≤ i → (terminal_putchar t c).terminal_buffer i = t.terminal_buffer i := by
  have hw : VGA_WIDTH = 80 := rfl
  have hh : VGA_HEIGHT = 25 := rfl
  by_cases h10 : c = 10
  · subst h10
    have e : terminal_putchar t 10 = next_line t := by simp [terminal_putchar]
    rw [e]
    exact next_line_grid t hr
  · by_cases h8 : c = 8
    · subst h8
      by_cases h0 : 0 < t.terminal_column
      · have e : terminal_putchar t 8 =
            { t with
              terminal_column := t.terminal_column - 1,
              terminal_buffer := Function.update t.terminal_buffer
                (cell_index (t.terminal_column - 1) t.terminal_row)
                (vga_entry 32 t.terminal_color) } := by
          simp [terminal_putchar, terminal_putentryat, h0]
        rw [e]
        refine ⟨hr, ?_, rfl, ?_⟩
        · show t.terminal_column - 1 < VGA_WIDTH
          omega
        · intro i hi
          show Function.update t.terminal_buffer _ _ i = _
          rw [cell_index_eq _ _ (by omega) (by omega), Function.update_noteq]
          rw [hw] at hc
          rw [hh] at hr
          omega
      · have e : terminal_putchar t 8 = t := by simp [terminal_putchar, h0]
        rw [e]
        exact ⟨hr, hc, rfl, fun _ _ => rfl⟩
    · obtain ⟨hlt, heq⟩ := terminal_putchar_plain t c h10 h8 hc
      have hidx : cell_index t.terminal_column t.terminal_row < 2000 := by
        rw [cell_index_eq _ _ (by omega) (by omega)]
        rw [hw] at hc
        rw [hh] at hr
        omega
      by_cases hlast : t.terminal_column + 1 = VGA_WIDTH
      · rw [heq hlast]
        obtain ⟨g1, g2, g3, g4⟩ := next_line_grid
          { t with
            terminal_column := VGA_WIDTH,
            terminal_buffer := Function.update t.terminal_buffer
              (cell_index t.terminal_column t.terminal_row) (vga_entry c t.terminal_color) } hr
        refine ⟨g1, g2, g3, ?_⟩
        intro i hi
        rw [g4 i hi]
        show Function.update t.terminal_buffer _ _ i = _
        rw [Function.update_noteq (by omega)]
      · rw [hlt (by omega)]
        refine ⟨hr, ?_, rfl, ?_⟩
        · show t.terminal_column + 1 < VGA_WIDTH
          omega
        · intro i hi
          show Function.update t.terminal_buffer _ _ i = _
          rw [Function.update_noteq (by omega)]

theorem terminal_write_grid (data : List Nat) (t : Terminal)
    (hr : t.terminal_row < VGA_HEIGHT) (hc : t.terminal_column < VGA_WIDTH) :
    (terminal_write t data).terminal_row < VGA_HEIGHT ∧
    (terminal_write t data).terminal_column < VGA_WIDTH ∧
    (terminal_write t data).terminal_color = t.terminal_color ∧
    ∀ i, 2000 ≤ i → (terminal_write t data).terminal_buffer i = t.terminal_buffer i := by
  induction data generalizing t with
  | nil => exact ⟨hr, hc, rfl, fun _ _ => rfl⟩
  | cons c cs ih =>
    obtain ⟨g1, g2, g3, g4⟩ := terminal_putchar_grid t c hr hc
    obtain ⟨k1, k2, k3, k4⟩ := ih (terminal_putchar t c) g1 g2
    simp only [terminal_write]
    exact ⟨k1, k2, by rw [k3, g3], fun i hi => by rw [k4 i hi, g4 i hi]⟩

theorem console_reachable_grid (t : Terminal) (h : ConsoleReachable t) :
    t.terminal_row < VGA_HEIGHT ∧ t.terminal_column < VGA_WIDTH := by
  induction h with
  | init t => exact ⟨(by decide : (0 : Nat) < 25), (by decide : (0 : Nat) < 80)⟩
  | putchar t c _ ih => exact ⟨(terminal_putchar_grid t c ih.1 ih.2).1,
      (terminal_putchar_grid t c ih.1 ih.2).2.1⟩
  | write t data _ ih => exact ⟨(terminal_write_grid data t ih.1 ih.2).1,
      (terminal_write_grid data t ih.1 ih.2).2.1⟩
  | scroll t _ ih => exact ⟨(by decide : (24 : Nat) < 25), ih.2⟩
  | clear t _ ih => exact ⟨(by decide : (0 : Nat) < 25), (by decide : (0 : Nat) < 80)⟩
  | setcolor t color _ ih => exact ih

/-- C16: after `terminal_initialize` and any sequence of `terminal_putchar` (any byte),
`terminal_write`, `terminal_scroll`, `terminal_clear` and `terminal_setcolor` calls the
cursor satisfies `terminal_row < VGA_HEIGHT` and `terminal_column < VGA_WIDTH`; the cell
index `terminal_row * VGA_WIDTH + terminal_column` that `terminal_putchar` writes at (and
the index one column to the left that a backspace writes at) lies inside the grid of
`VGA_HEIGHT * VGA_WIDTH` cells; and none of the operations changes a cell outside the
grid. -/
theorem console_cursor_invariant (t : Terminal) (h : ConsoleReachable t) :
    (t.terminal_row < VGA_HEIGHT ∧ t.terminal_column < VGA_WIDTH) ∧
    (cell_index t.terminal_column t.terminal_row =
        t.terminal_row * VGA_WIDTH + t.terminal_column ∧
      t.terminal_row * VGA_WIDTH + t.terminal_column < VGA_HEIGHT * VGA_WIDTH ∧
      cell_index (t.terminal_column - 1) t.terminal_row < VGA_HEIGHT * VGA_WIDTH) ∧
    (∀ (c i : Nat), VGA_HEIGHT * VGA_WIDTH ≤ i →
      (terminal_putchar t c).terminal_buffer i = t.terminal_buffer i) ∧
    (∀ (data : List Nat) (i : Nat), VGA_HEIGHT * VGA_WIDTH ≤ i →
      (terminal_write t data).terminal_buffer i = t.terminal_buffer i) ∧
    (∀ i, VGA_HEIGHT * VGA_WIDTH ≤ i →
      (terminal_scroll t).terminal_buffer i = t.terminal_buffer i) ∧
    (∀ i, VGA_HEIGHT * VGA_WIDTH ≤ i →
      (terminal_clear t).terminal_buffer i = t.terminal_buffer i) := by
  obtain ⟨hr, hc⟩ := console_reachable_grid t h
  have hw : VGA_WIDTH = 80 := rfl
  have hh : VGA_HEIGHT = 25 := rfl
  have hg : VGA_HEIGHT * VGA_WIDTH = 2000 := rfl
  rw [hg]
  refine ⟨⟨hr, hc⟩, ⟨?_, ?_, ?_⟩, ?_, ?_, ?_, ?_⟩
  · rw [cell_index_eq _ _ (by omega) (by omega), hw]
  · rw [hw] at hc ⊢
    rw [hh] at hr
    omega
  · rw [cell_index_eq _ _ (by omega) (by omega)]
    rw [hw] at hc
    rw [hh] at hr
    omega
  · intro c i hi
    exact (terminal_putchar_grid t c hr hc).2.2.2 i hi
  · intro data i hi
    exact (terminal_write_grid data t hr hc).2.2.2 i hi
  · intro i hi
    rw [terminal_scroll_buffer, if_neg (by omega), if_neg (by omega)]
  · intro i hi
    show fill_grid _ _ i = _
    rw [fill_grid_eq, if_neg (by omega)]

theorem console_cursor_invariant_witness :
    ConsoleReachable (terminal_write console0 [104, 105, 10, 8]) ∧
    ((terminal_write console0 [104, 105, 10, 8]).terminal_row < VGA_HEIGHT ∧
      (terminal_write console0 [104, 105, 10, 8]).terminal_column < VGA_WIDTH) :=
  ⟨.write _ _ (.init _),
    (console_cursor_invariant _ (.write _ _ (.init _))).1⟩

/-! ## Console: a run of ordinary characters -/

/-- Oversized requests whose round-up does not wrap: in every state reachable from
`memory_init` a request with `MEMORY_POOL_SIZE < size` and `size + 3 < SIZE_MOD` returns
`NULL` and leaves the descriptor table and `total_allocated` unchanged. -/
theorem kmalloc_oversized_in_range (s : Allocator) (h : Reachable s) (size : Nat)
    (hbig : MEMORY_POOL_SIZE < size) (hs : size + 3 < SIZE_MOD) :
    kmalloc s size = (none, s) := by
  have hinv := reachable_inv s h
  rcases kmalloc_spec s size with ⟨h1, h2, _⟩ | ⟨_, i, b, hm, _, _⟩
  · exact Prod.ext h1 h2
  · obtain ⟨hfit, hget, -⟩ := first_match_some _ _ _ _ hm
    obtain ⟨-, hle⟩ := (fits_iff _ _).mp hfit
    rw [align4_of_le size hs] at hle
    have hb := total_ge MemBlock.size _ _ _ hget
    have hsz := hinv.sum_size
    omega

theorem two_halves_released_reachable : Reachable two_halves_released :=
  .free _ _ (.free _ _ (.malloc _ _ (by decide) (.malloc _ _ (by decide) .init)))

/-- C21 (failing input): in the reachable state `two_halves_released` (two free blocks of
16384 bytes) the request 4294967294 is greater than `MEMORY_POOL_SIZE` and within
`size_t`, yet `kmalloc` does not return `NULL`: `(size + 3) & ~3` wraps to 0, block 0 is
handed out with length 0, a third descriptor is appended, and the pool base is
returned; the descriptor table is not left unchanged. -/
theorem kmalloc_oversized_not_rejected :
    Reachable two_halves_released ∧
    two_halves_released =
      { mem_blocks := [⟨0, 16384, false⟩, ⟨16384, 16384, false⟩], total_allocated := 0 } ∧
    MEMORY_POOL_SIZE < 4294967294 ∧ 4294967294 < SIZE_MOD ∧
    align4 4294967294 = 0 ∧
    kmalloc two_halves_released 4294967294 =
      (some 0,
        { mem_blocks := [⟨0, 0, true⟩, ⟨16384, 16384, false⟩, ⟨0, 16384, false⟩],
          total_allocated := 0 }) :=
  ⟨two_halves_released_reachable, by decide, by decide, by decide, by decide, by decide⟩

end Hoplite
